import Mathlib

/-!
The line-framing and record-parsing pipeline of `co2monitor.go` (co2-monitor).

A shallow embedding of `co2monitor.go` and of the parts of the Go standard
library it calls (`strings.Split`, `strings.Contains`, `strings.HasPrefix`,
`fmt.Sscanf` with the verbs `%d` and `%f`, `strconv.ParseInt`).

Modelling conventions.

* A Go `string` is modelled by the list of its code points (`Str`); the
  separators the program looks for (`,`, `=`, `\r\n`, `CO2`) are ASCII, so on
  well-formed UTF-8 text the byte-wise library functions and the model agree.
* `int` is the 64-bit Go `int`; `strconv.ParseInt` is modelled with its
  explicit overflow checks on `uint64` arithmetic.
* `float64` is not interpreted: `strconv.ParseFloat`, `math.Ldexp` and the
  finiteness test of `encoding/json` are the fields of a `FloatLib`.
* The limit of 2^30 runes that `fmt` puts on one scan is not modelled: the
  lines of the program come from reads of at most 27 bytes.
* The signal-handling goroutine and the `time.Sleep` calls of `main` are not
  part of the model; `main` is modelled by the trace of events of its main
  goroutine.
-/

set_option autoImplicit false

namespace Co2Monitor

/-- A Go string, as the list of its code points. -/
abbrev Str := List Char

deriving instance DecidableEq for Except

/-! ## `strings` -/

/-- `strings.Index(s, substr)`: the position of the first occurrence of
`substr` in `s`; `none` stands for Go's `-1`. -/
def Index : Str → Str → Option Nat
  | [], substr => if substr = [] then some 0 else none
  | c :: cs, substr =>
    if substr.isPrefixOf (c :: cs) = true then some 0
    else
      match Index cs substr with
      | some m => some (m + 1)
      | none => none

/-- `strings.Contains(s, substr)` is `Index(s, substr) >= 0`. -/
def Contains (s substr : Str) : Bool := (Index s substr).isSome

/-- `strings.HasPrefix(s, prefix)`. -/
def HasPrefix (s pre : Str) : Bool := pre.isPrefixOf s

/-- The loop of `strings.genSplit` for a non-empty separator: at most `n`
times, cut `s` at the first occurrence of `sep` (`a[i] = s[:m]`,
`s = s[m+len(sep):]`), stop early when `Index` finds nothing, and end with the
remainder. -/
def genSplit (sep : Str) : Nat → Str → List Str
  | 0, s => [s]
  | n + 1, s =>
    match Index s sep with
    | none => [s]
    | some m => s.take m :: genSplit sep n (s.drop (m + sep.length))

/-- `strings.Split(s, sep)` for a non-empty `sep`. Go bounds the loop by
`Count(s, sep)`, the number of non-overlapping occurrences, which is at most
`len(s)`; as the loop also stops when `Index` finds nothing, running it
`len(s)` times yields the same slice. -/
def Split (s sep : Str) : List Str := genSplit sep s.length s

/-! ## `strconv` -/

/-- The `Err` of a `*strconv.NumError`. -/
inductive NumError
  | errSyntax
  | errRange
  deriving DecidableEq, Repr

/-- The largest `uint64`. -/
def maxUint64 : Nat := 18446744073709551615

/-- The digit loop of `strconv.ParseUint(s, 10, 64)` with accumulator `n`.
A byte that is not a decimal digit is a syntax error (a letter has a digit
value of at least 10, the base, and is a syntax error as well);
`cutoff = maxUint64/10 + 1` guards the multiplication and the comparison
`n1 < n || n1 > maxVal` the addition, both on `uint64`. -/
def parseUintLoop : Nat → Str → Except NumError Nat
  | n, [] => .ok n
  | n, c :: cs =>
    if '0' ≤ c ∧ c ≤ '9' then
      let d := c.toNat - '0'.toNat
      if n ≥ maxUint64 / 10 + 1 then .error .errRange
      else
        let n10 := (n * 10) % 2 ^ 64
        let n1 := (n10 + d) % 2 ^ 64
        if n1 < n10 ∨ n1 > maxUint64 then .error .errRange
        else parseUintLoop n1 cs
    else .error .errSyntax

/-- `strconv.ParseUint(s, 10, 64)`. -/
def ParseUint (s : Str) : Except NumError Nat :=
  if s = [] then .error .errSyntax else parseUintLoop 0 s

/-- `strconv.ParseInt(s, 10, 64)`: an optional sign, then `ParseUint`, then
the range check against `cutoff = 1 << 63`. -/
def ParseInt (s : Str) : Except NumError Int :=
  match s with
  | [] => .error .errSyntax
  | c :: cs =>
    let neg := c = '-'
    let s1 := if c = '+' ∨ c = '-' then cs else c :: cs
    match ParseUint s1 with
    | .error e => .error e
    | .ok un =>
      if ¬ neg ∧ un ≥ 2 ^ 63 then .error .errRange
      else if neg ∧ un > 2 ^ 63 then .error .errRange
      else .ok (if neg then -(un : Int) else (un : Int))

/-- `strconv.Atoi(s)`: its fast path and `ParseInt(s, 10, 0)` agree on a
64-bit `int`. -/
def Atoi (s : Str) : Except NumError Int := ParseInt s

/-! ## `fmt.Sscanf` -/

/-- The errors of a one-verb `fmt.Sscanf`. -/
inductive ScanError
  /-- The input ended where a token had to start (`io.EOF`). -/
  | eof
  /-- The message "unexpected newline". -/
  | unexpectedNewline
  /-- The message "expected integer". -/
  | expectedInteger
  /-- An error of `strconv.ParseInt` or `strconv.Atoi`. -/
  | num (e : NumError)
  /-- An error of `strconv.ParseFloat`. -/
  | float
  deriving DecidableEq, Repr

/-- The table `space` of `fmt/scan.go`, as `isSpace` reads it. -/
def isSpace (r : Char) : Bool :=
  let n := r.toNat
  (0x0009 ≤ n && n ≤ 0x000d) || n == 0x0020 || n == 0x0085 || n == 0x00a0 ||
  n == 0x1680 || (0x2000 ≤ n && n ≤ 0x200a) || (0x2028 ≤ n && n ≤ 0x2029) ||
  n == 0x202f || n == 0x205f || n == 0x3000

/-- `(*ss).peek(ok)`: is the next rune one of `ok`? -/
def peek (ok : Str) : Str → Bool
  | [] => false
  | r :: _ => ok.contains r

/-- `(*ss).SkipSpace` with `nlIsSpace = false`, as in `Sscanf`: spaces are
skipped, a newline (also after a carriage return) is an error, and the first
other rune is left unread. -/
def SkipSpace : Str → Except ScanError Str
  | [] => .ok []
  | r :: rest =>
    if r = '\r' ∧ peek ['\n'] rest = true then SkipSpace rest
    else if r = '\n' then .error .unexpectedNewline
    else if isSpace r = false then .ok (r :: rest)
    else SkipSpace rest

/-- `(*ss).notEOF`. -/
def notEOF : Str → Except ScanError Unit
  | [] => .error .eof
  | _ :: _ => .ok ()

/-- The scanner state that matters here: the token buffer `buf` and the
unread input `rs`. -/
structure ss where
  buf : Str
  rs : Str
  deriving DecidableEq, Repr

/-- `(*ss).accept(ok)`: when the next rune is one of `ok`, move it to the
buffer and report `true`; otherwise leave it unread. -/
def accept (ok : Str) (s : ss) : Bool × ss :=
  match s.rs with
  | [] => (false, s)
  | r :: rest => if ok.contains r = true then (true, ⟨s.buf ++ [r], rest⟩) else (false, s)

/-- The loop `for s.accept(ok) {}`: the longest run of runes of `ok` moves to
the buffer. -/
def acceptAll (ok : Str) (s : ss) : ss :=
  ⟨s.buf ++ s.rs.takeWhile ok.contains, s.rs.dropWhile ok.contains⟩

/-- The constant `decimalDigits` of `fmt/scan.go`. -/
def decimalDigits : Str := "0123456789".toList
/-- The constant `hexadecimalDigits` of `fmt/scan.go`. -/
def hexadecimalDigits : Str := "0123456789aAbBcCdDeEfF".toList
/-- The constant `sign` of `fmt/scan.go`. -/
def sign : Str := "+-".toList
/-- The constant `period` of `fmt/scan.go`. -/
def period : Str := ".".toList
/-- The constant `exponent` of `fmt/scan.go`. -/
def exponent : Str := "eEpP".toList

/-- `(*ss).scanNumber(digits, false)`: at least one digit, then the run of
digits; the token is the buffer (sign included). -/
def scanNumber (digits : Str) (s : ss) : Except ScanError ss :=
  match notEOF s.rs with
  | .error e => .error e
  | .ok _ =>
    match accept digits s with
    | (false, _) => .error .expectedInteger
    | (true, s1) => .ok (acceptAll digits s1)

/-- `(*ss).scanInt('d', 64)`: skip spaces, demand input, take an optional
sign and a decimal number, and convert the token by `strconv.ParseInt`. -/
def scanInt (input : Str) : Except ScanError Int :=
  match SkipSpace input with
  | .error e => .error e
  | .ok rs =>
    match notEOF rs with
    | .error e => .error e
    | .ok _ =>
      match scanNumber decimalDigits (accept sign ⟨[], rs⟩).2 with
      | .error e => .error e
      | .ok s =>
        match ParseInt s.buf with
        | .error e => .error (.num e)
        | .ok i => .ok i

/-- `fmt.Sscanf(str, "%d", &value)` for `value` an `int`: `doScanf` skips
spaces before the verb and `scanOne` scans the integer; input left after the
token is not an error. -/
def SscanfInt (str : Str) : Except ScanError Int :=
  match SkipSpace str with
  | .error e => .error e
  | .ok rs => scanInt rs

/-- What `fmt` and `encoding/json` need of `float64`: `strconv.ParseFloat(s, 64)`
(`none` for an error), `math.Ldexp`, and whether a value is neither infinite
nor NaN. -/
structure FloatLib where
  F : Type
  parseFloat : Str → Option F
  ldexp : F → Int → F
  isFinite : F → Bool

/-- `(*ss).floatToken`: the characters of a floating-point token, without a
check that they form a number. -/
def floatToken (rs : Str) : ss :=
  let s0 : ss := ⟨[], rs⟩
  -- NaN?
  let n1 := accept "nN".toList s0
  let n2 := if n1.1 then accept "aA".toList n1.2 else (false, n1.2)
  let n3 := if n2.1 then accept "nN".toList n2.2 else (false, n2.2)
  if n3.1 then n3.2
  else
    -- leading sign?
    let s1 := (accept sign n3.2).2
    -- Inf?
    let i1 := accept "iI".toList s1
    let i2 := if i1.1 then accept "nN".toList i1.2 else (false, i1.2)
    let i3 := if i2.1 then accept "fF".toList i2.2 else (false, i2.2)
    if i3.1 then i3.2
    else
      let z := accept "0".toList i3.2
      let x := if z.1 then accept "xX".toList z.2 else (false, z.2)
      let digits := if x.1 then hexadecimalDigits ++ ['_'] else decimalDigits ++ ['_']
      let exp := if x.1 then "pP".toList else exponent
      -- digits?
      let s2 := acceptAll digits x.2
      -- decimal point, fraction?
      let p := accept period s2
      let s3 := if p.1 then acceptAll digits p.2 else p.2
      -- exponent, leading sign, digits?
      let e := accept exp s3
      if e.1 then acceptAll (decimalDigits ++ ['_']) (accept sign e.2).2 else e.2

/-- The helper `hasX` of `fmt/scan.go`. -/
def hasX (s : Str) : Bool := s.contains 'x' || s.contains 'X'

/-- `(*ss).convertFloat(str, 64)`: a token with a `p` exponent on a decimal
mantissa is evaluated as `Ldexp(ParseFloat(str[:p]), Atoi(str[p+1:]))`, any
other token by `ParseFloat`. -/
def convertFloat (lib : FloatLib) (str : Str) : Except ScanError lib.F :=
  if str.contains 'p' = true ∧ hasX str = false then
    match lib.parseFloat (str.takeWhile (· ≠ 'p')) with
    | none => .error .float
    | some f =>
      match Atoi ((str.dropWhile (· ≠ 'p')).drop 1) with
      | .error e => .error (.num e)
      | .ok m => .ok (lib.ldexp f m)
  else
    match lib.parseFloat str with
    | none => .error .float
    | some f => .ok f

/-- `fmt.Sscanf(str, "%f", &value)` for `value` a `float64`: spaces are
skipped by `doScanf` and again by `scanOne`, input is demanded, and the float
token is converted; input left after the token is not an error. -/
def SscanfFloat (lib : FloatLib) (str : Str) : Except ScanError lib.F :=
  match SkipSpace str with
  | .error e => .error e
  | .ok rs0 =>
    match SkipSpace rs0 with
    | .error e => .error e
    | .ok rs =>
      match notEOF rs with
      | .error e => .error e
      | .ok _ => convertFloat lib (floatToken rs).buf

/-! ## `co2monitor.go` -/

/-- The struct `SensorData`; `F` stands for `float64`. -/
structure SensorData (F : Type) where
  Co2 : Int
  Hum : F
  Temp : F
  deriving DecidableEq, Repr

/-- The errors `parseSensorData` builds with `fmt.Errorf`. -/
inductive ParseError
  /-- The message "invalid data format". -/
  | invalidDataFormat
  /-- The message "failed to parse CO2 value: %w". -/
  | co2 (cause : ScanError)
  /-- The message "failed to parse HUM value: %w". -/
  | hum (cause : ScanError)
  /-- The message "failed to parse TMP value: %w". -/
  | tmp (cause : ScanError)
  deriving DecidableEq, Repr

/-- `parseIntValue`: the value scanned by `fmt.Sscanf(s, "%d", &value)`. -/
def parseIntValue (s : Str) : Except ScanError Int :=
  match SscanfInt s with
  | .error err => .error err
  | .ok value => .ok value

/-- `parseFloatValue`: the value scanned by `fmt.Sscanf(s, "%f", &value)`. -/
def parseFloatValue (lib : FloatLib) (s : Str) : Except ScanError lib.F :=
  match SscanfFloat lib s with
  | .error err => .error err
  | .ok value => .ok value

/-- The string "CO2": a key of the map and the prefix of a data line. -/
def keyCO2 : Str := "CO2".toList
/-- The string "HUM". -/
def keyHUM : Str := "HUM".toList
/-- The string "TMP". -/
def keyTMP : Str := "TMP".toList
/-- The literal of the pattern "^tty\\.usbmodem". -/
def ttyUsbmodem : Str := "tty.usbmodem".toList

/-- A Go `map[string]string` as its lookup function: a key that was never
assigned reads as the empty string. -/
abbrev StrMap := Str → Str

/-- The result of `make(map[string]string)`. -/
def emptyMap : StrMap := fun _ => []

/-- The assignment `m[k] = v`. -/
def StrMap.set (m : StrMap) (k v : Str) : StrMap := fun k1 => if k1 = k then v else m k1

/-- The loop of `parseSensorData` over `pairs`: a pair that does not split on
"=" into two tokens ends the function with "invalid data format", any other
pair is stored in `dataMap`. -/
def fillMap : List Str → StrMap → Except ParseError StrMap
  | [], dataMap => .ok dataMap
  | pair :: pairs, dataMap =>
    match Split pair ['='] with
    | [k, v] => fillMap pairs (dataMap.set k v)
    | _ => .error .invalidDataFormat

/-- `parseSensorData`: the record of a line, or the error (with a `nil`
record) of the first stage that fails. -/
def parseSensorData (lib : FloatLib) (data : Str) : Except ParseError (SensorData lib.F) :=
  match fillMap (Split data [',']) emptyMap with
  | .error err => .error err
  | .ok dataMap =>
    match parseIntValue (dataMap keyCO2) with
    | .error err => .error (.co2 err)
    | .ok co2 =>
      match parseFloatValue lib (dataMap keyHUM) with
      | .error err => .error (.hum err)
      | .ok hum =>
        match parseFloatValue lib (dataMap keyTMP) with
        | .error err => .error (.tmp err)
        | .ok temp => .ok ⟨co2, hum, temp⟩

/-- The three conversions of `parseSensorData`, on the values the map
holds. -/
def convert (lib : FloatLib) (vc vh vt : Str) : Except ParseError (SensorData lib.F) :=
  match parseIntValue vc with
  | .error err => .error (.co2 err)
  | .ok co2 =>
    match parseFloatValue lib vh with
    | .error err => .error (.hum err)
    | .ok hum =>
      match parseFloatValue lib vt with
      | .error err => .error (.tmp err)
      | .ok temp => .ok ⟨co2, hum, temp⟩

/-- `regexp.MatchString("^tty\\.usbmodem", name)`: the pattern is the
beginning-of-text anchor followed by the literal `tty.usbmodem`, so it matches
the names that start with that literal. -/
def matchTtyUsbmodem (name : Str) : Bool := HasPrefix name ttyUsbmodem

/-- `getDevicePath` once `ioutil.ReadDir("/dev/")` has returned the entry
names `files` (sorted by file name): the loop leaves at the first match with
`devicePath = "/dev/" + name`, and `devicePath` stays empty without a match. -/
def getDevicePath : List Str → Str
  | [] => []
  | name :: files =>
    if matchTtyUsbmodem name = true then "/dev/".toList ++ name
    else getDevicePath files

/-- The document `json.MarshalIndent` renders for a `SensorData`, by its
keys. -/
structure JsonObject (F : Type) where
  co2 : Int
  hum : F
  temp : F
  deriving DecidableEq, Repr

/-- `json.MarshalIndent(sensorData, "", "  ")`: `encoding/json` rejects a
`float64` that is infinite or NaN (`UnsupportedValueError`) and renders every
other record. -/
def jsonMarshalIndent (lib : FloatLib) (d : SensorData lib.F) : Option (JsonObject lib.F) :=
  if lib.isFinite d.Hum = true ∧ lib.isFinite d.Temp = true then some ⟨d.Co2, d.Hum, d.Temp⟩
  else none

/-- An error of the operating system; `enoent` is "no such file or
directory". -/
inductive OSError
  | enoent
  | other (code : Nat)
  deriving DecidableEq, Repr

/-- The two messages of the read loop for `log.Println`. -/
inductive LogMsg
  /-- The message "Failed to parse sensor data:" with the error. -/
  | failedToParse (err : ParseError)
  /-- The message "Failed to marshal JSON data:" with the error. -/
  | failedToMarshal
  deriving DecidableEq, Repr

/-- What the main goroutine does that can be observed, in order. -/
inductive Event (F : Type)
  /-- A call `s.Write([]byte(cmd))`. -/
  | write (cmd : Str)
  /-- A call `s.Read(buf)` that returned `data = string(buf[:n])`. -/
  | read (data : Str)
  /-- A call `parseSensorData(line)`. -/
  | parse (line : Str)
  /-- A call of `log.Println` (standard error). -/
  | logPrintln (msg : LogMsg)
  /-- A call `fmt.Println(string(jsonData))` (standard output). -/
  | println (jsonData : JsonObject F)
  /-- A call of `log.Fatal`: the process exits with status 1. -/
  | logFatal (err : OSError)
  /-- A run-time panic "index out of range". -/
  | panicIndex
  deriving DecidableEq, Repr

/-- The carriage-return/line-feed pair. -/
def crlf : Str := ['\r', '\n']

/-- The body of the read loop after a successful `s.Read`, for
`data = string(buf[:n])`. -/
def processChunk (lib : FloatLib) (data : Str) : List (Event lib.F) :=
  if Contains data crlf = true then
    if HasPrefix data keyCO2 = true then
      match (Split data crlf)[0]? with
      | none => [.panicIndex]
      | some line =>
        if line ≠ [] then
          .parse line ::
            match parseSensorData lib line with
            | .error err => [.logPrintln (.failedToParse err)]
            | .ok sensorData =>
              match jsonMarshalIndent lib sensorData with
              | none => [.logPrintln .failedToMarshal]
              | some jsonData => [.println jsonData]
        else []
    else []
  else []

/-- The read loop `for { ... }` over the outcomes of the successive calls of
`s.Read(buf)`: a failed read is fatal; when the outcomes are used up the loop
is waiting in `s.Read`. The bytes `buf[:n]` of a read are those this read
delivered, so an iteration sees nothing of the earlier ones. -/
def readLoop (lib : FloatLib) : List (Except OSError Str) → List (Event lib.F)
  | [] => []
  | .error err :: _ => [.logFatal err]
  | .ok data :: reads => .read data :: (processChunk lib data ++ readLoop lib reads)

/-- The environment of a run of `main`. -/
structure World where
  /-- The outcome of `ioutil.ReadDir("/dev/")`: the entry names, sorted. -/
  readDir : Except OSError (List Str)
  /-- The outcome of opening the device file of a given non-empty name. -/
  openFile : Str → Except OSError Unit
  /-- The outcome of writing a command to the port. -/
  write : Str → Except OSError Unit
  /-- The outcomes of the successive reads from the port. -/
  reads : List (Except OSError Str)

/-- `serial.OpenPort(&serial.Config{Name: name, Baud: 115200})`: the port is
opened by `os.OpenFile(name, ...)`, which fails with `ENOENT` on the empty
name. -/
def OpenPort (w : World) (name : Str) : Except OSError Unit :=
  if name = [] then .error .enoent else w.openFile name

/-- The main goroutine of `main`: locate the device, open the port, send
"STP\r\n" and "STA\r\n", and run the read loop. -/
def main (lib : FloatLib) (w : World) : List (Event lib.F) :=
  match w.readDir with
  | .error err => [.logFatal err]
  | .ok files =>
    let serialPortPath := getDevicePath files
    match OpenPort w serialPortPath with
    | .error err => [.logFatal err]
    | .ok _ =>
      .write "STP\r\n".toList ::
        match w.write "STP\r\n".toList with
        | .error err => [.logFatal err]
        | .ok _ =>
          .write "STA\r\n".toList ::
            match w.write "STA\r\n".toList with
            | .error err => [.logFatal err]
            | .ok _ => readLoop lib w.reads

/-! ## An exact decimal stand-in for `float64` -/

/-- The number a run of decimal digits denotes. -/
def decimalValue (ds : Str) : Nat :=
  ds.foldl (fun n c => 10 * n + (c.toNat - '0'.toNat)) 0

/-- Values for the stand-in: NaN, the infinities, and the decimal numbers
`(-1)^neg * mant / 10^scale`, kept exactly. -/
inductive Dec
  | nan
  | inf (neg : Bool)
  | fin (neg : Bool) (mant scale : Nat)
  deriving DecidableEq, Repr

/-- `strconv.ParseFloat` on the stand-in, for "NaN", the signed "Inf" and
"Infinity" (in any case) and the decimal literals without exponent; the
binary rounding, the range check and the other literal forms of `float64` are
outside it. -/
def Dec.parse (s : Str) : Option Dec :=
  if s.map Char.toLower = "nan".toList then some .nan
  else
    let neg := peek ['-'] s
    let body := if peek sign s = true then s.drop 1 else s
    if body.map Char.toLower = "inf".toList ∨ body.map Char.toLower = "infinity".toList then
      some (.inf neg)
    else
      let ip := body.takeWhile decimalDigits.contains
      match body.dropWhile decimalDigits.contains with
      | [] => if ip = [] then none else some (.fin neg (decimalValue ip) 0)
      | c :: fp =>
        if c = '.' ∧ fp.all decimalDigits.contains = true ∧ ip ++ fp ≠ [] then
          some (.fin neg (decimalValue (ip ++ fp)) fp.length)
        else none

/-- `math.Ldexp` on the stand-in: `2^m` is `5^(-m) / 10^(-m)` for a negative
`m`. -/
def Dec.ldexp (f : Dec) (m : Int) : Dec :=
  match f with
  | .fin neg mant scale =>
    if 0 ≤ m then .fin neg (mant * 2 ^ m.toNat) scale
    else .fin neg (mant * 5 ^ (-m).toNat) (scale + (-m).toNat)
  | f => f

/-- The stand-in as a `FloatLib`. -/
@[reducible]
def decLib : FloatLib where
  F := Dec
  parseFloat := Dec.parse
  ldexp := Dec.ldexp
  isFinite := fun f => match f with
    | .fin _ _ _ => true
    | _ => false

/-! ## Vocabulary of the specification -/

/-- The comma-separated pairs of a line, each split on "=". -/
def pairsOf (line : Str) : List (List Str) :=
  (Split line [',']).map (fun pair => Split pair ['='])

/-- The values a list of split pairs gives to `key`, in the order of the
pairs; a pair counts when it has exactly two tokens. -/
def valuesIn (key : Str) (kvs : List (List Str)) : List Str :=
  kvs.filterMap (fun kv =>
    match kv with
    | [k, v] => if k = key then some v else none
    | _ => none)

/-- The key occurs in the line: some pair of the line is `key=value`. -/
def keyOccurs (key line : Str) : Prop := valuesIn key (pairsOf line) ≠ []

instance (key line : Str) : Decidable (keyOccurs key line) := by
  unfold keyOccurs
  exact inferInstance

/-- The value of the last pair of the line with the given key. -/
def lastValue (key line : Str) : Option Str := (valuesIn key (pairsOf line)).getLast?

/-- The first of the keys CO2, HUM, TMP, in this order, that does not occur
in the line. -/
def firstMissing (line : Str) : Option Str :=
  [keyCO2, keyHUM, keyTMP].find? (fun key => decide (¬ keyOccurs key line))

/-- The field an error of `parseSensorData` names in its message. -/
def ParseError.field : ParseError → Option Str
  | .invalidDataFormat => none
  | .co2 _ => some keyCO2
  | .hum _ => some keyHUM
  | .tmp _ => some keyTMP

/-- The line made of the pairs `key=value`, joined by commas. -/
def lineOf (kvs : List (Str × Str)) : Str :=
  [','].intercalate (kvs.map (fun kv => kv.1 ++ '=' :: kv.2))

/-- The string `v` is a base-10 integer literal of value `i`: an optional
sign and a non-empty run of decimal digits. -/
def isIntLiteral (v : Str) (i : Int) : Prop :=
  ∃ ds : Str, ds ≠ [] ∧ (∀ c ∈ ds, c ∈ decimalDigits) ∧
    (((v = ds ∨ v = '+' :: ds) ∧ i = (decimalValue ds : Int)) ∨
      (v = '-' :: ds ∧ i = -(decimalValue ds : Int)))

/-- The string `v` is a decimal literal: an optional sign, decimal digits and
at most one period among them, with a digit somewhere. -/
def isDecimalLiteral (v : Str) : Prop :=
  ∃ sg ip fr : Str, v = sg ++ (ip ++ fr) ∧ (sg = [] ∨ sg = ['+'] ∨ sg = ['-']) ∧
    (∀ c ∈ ip, c ∈ decimalDigits) ∧
    (fr = [] ∨ ∃ fp : Str, fr = '.' :: fp ∧ ∀ c ∈ fp, c ∈ decimalDigits) ∧
    (ip ≠ [] ∨ 1 < fr.length)

/-- The records the read loop wrote to standard output, in order. -/
def printed {F : Type} (trace : List (Event F)) : List (JsonObject F) :=
  trace.filterMap (fun ev =>
    match ev with
    | .println j => some j
    | _ => none)

/-- The lines the read loop passed to `parseSensorData`, in order. -/
def parsed {F : Type} (trace : List (Event F)) : List Str :=
  trace.filterMap (fun ev =>
    match ev with
    | .parse line => some line
    | _ => none)

/-- The chunks the read loop received, in order. -/
def received {F : Type} (trace : List (Event F)) : List Str :=
  trace.filterMap (fun ev =>
    match ev with
    | .read data => some data
    | _ => none)

/-- The first terminator-delimited segment of a chunk. -/
def firstSegment (data : Str) : Str := (Split data crlf).headD []

/-- What the read loop writes to standard output for a chunk, by the
specification: the rendering of the record of its first segment, when the
chunk is accepted, the segment parses and the record can be rendered. -/
def rendered (lib : FloatLib) (data : Str) : Option (JsonObject lib.F) :=
  if Contains data crlf = true ∧ HasPrefix data keyCO2 = true then
    match parseSensorData lib (firstSegment data) with
    | .ok d => jsonMarshalIndent lib d
    | .error _ => none
  else none

/-- The chunk passes the filter of the read loop. -/
def accepted (data : Str) : Bool := Contains data crlf && HasPrefix data keyCO2

/-! ## Facts about `Index` and `Split` -/

theorem isPrefixOf_singleton (c x : Char) (xs : Str) :
    List.isPrefixOf [c] (x :: xs) = (c == x) := by
  simp [List.isPrefixOf]

theorem Index_singleton_of_not_mem (c : Char) (s : Str) (h : c ∉ s) : Index s [c] = none := by
  induction s with
  | nil => simp [Index]
  | cons x xs ih =>
    have hx : c ≠ x := fun e => h (by simp [e])
    have hxs : c ∉ xs := fun e => h (by simp [e])
    simp [Index, isPrefixOf_singleton, hx, ih hxs]

theorem Index_singleton_append (c : Char) (a b : Str) (h : c ∉ a) :
    Index (a ++ c :: b) [c] = some a.length := by
  induction a with
  | nil => simp [Index, isPrefixOf_singleton]
  | cons x xs ih =>
    have hx : c ≠ x := fun e => h (by simp [e])
    have hxs : c ∉ xs := fun e => h (by simp [e])
    simp [Index, isPrefixOf_singleton, hx, ih hxs]

theorem Index_nil (sep : Str) (h : sep ≠ []) : Index [] sep = none := by
  simp [Index, h]

/-- Once the bound of `genSplit` reaches the length of the string, a larger
bound changes nothing. -/
theorem genSplit_bound (sep : Str) (hsep : sep ≠ []) :
    ∀ (n m : Nat) (s : Str), s.length ≤ n → s.length ≤ m → genSplit sep n s = genSplit sep m s := by
  have hlen : 1 ≤ sep.length := by
    cases sep with
    | nil => exact absurd rfl hsep
    | cons _ _ => simp
  intro n
  induction n with
  | zero =>
    intro m s hn _
    have hs : s = [] := List.eq_nil_of_length_eq_zero (Nat.le_zero.mp hn)
    subst hs
    cases m with
    | zero => rfl
    | succ m => simp [genSplit, Index_nil sep hsep]
  | succ n ih =>
    intro m s hn hm
    cases m with
    | zero =>
      have hs : s = [] := List.eq_nil_of_length_eq_zero (Nat.le_zero.mp hm)
      subst hs
      simp [genSplit, Index_nil sep hsep]
    | succ m =>
      cases hI : Index s sep with
      | none => simp [genSplit, hI]
      | some k =>
        have hne : s ≠ [] := by
          intro e
          subst e
          rw [Index_nil sep hsep] at hI
          cases hI
        have hpos : 1 ≤ s.length := by
          cases s with
          | nil => exact absurd rfl hne
          | cons _ _ => simp
        have hd : (s.drop (k + sep.length)).length ≤ s.length - 1 := by
          rw [List.length_drop]
          omega
        simp only [genSplit, hI]
        rw [ih m (s.drop (k + sep.length)) (by omega) (by omega)]

theorem Split_of_not_mem (c : Char) (a : Str) (h : c ∉ a) : Split a [c] = [a] := by
  unfold Split
  cases hl : a.length with
  | zero => rfl
  | succ n => simp [genSplit, Index_singleton_of_not_mem c a h]

theorem Split_append_cons (c : Char) (a b : Str) (h : c ∉ a) :
    Split (a ++ c :: b) [c] = a :: Split b [c] := by
  unfold Split
  have hl : (a ++ c :: b).length = (a.length + b.length) + 1 := by
    simp only [List.length_append, List.length_cons]
    omega
  rw [hl]
  simp only [genSplit, Index_singleton_append c a b h, List.length_singleton]
  have hdrop : List.drop (a.length + 1) (a ++ c :: b) = b := by
    rw [List.drop_append_eq_append_drop]
    simp
  rw [hdrop, List.take_left]
  rw [genSplit_bound [c] (by simp) (a.length + b.length) b.length b (by omega) (by omega)]

/-- The first occurrence of a character splits a list around it. -/
theorem exists_first_occurrence (c : Char) :
    ∀ s : Str, c ∈ s → ∃ a b, s = a ++ c :: b ∧ c ∉ a := by
  intro s
  induction s with
  | nil => intro h; cases h
  | cons x xs ih =>
    intro h
    by_cases hx : c = x
    · exact ⟨[], xs, by simp [hx], by simp⟩
    · have hxs : c ∈ xs := by
        rcases List.mem_cons.mp h with e | e
        · exact absurd e hx
        · exact e
      obtain ⟨a, b, hab, ha⟩ := ih hxs
      refine ⟨x :: a, b, by simp [hab], ?_⟩
      intro hm
      rcases List.mem_cons.mp hm with e | e
      · exact hx e
      · exact ha e

/-- Splitting on a character gives one piece more than the character occurs. -/
theorem Split_length (c : Char) : ∀ (n : Nat) (s : Str), s.length ≤ n →
    (Split s [c]).length = s.count c + 1 := by
  intro n
  induction n with
  | zero =>
    intro s hs
    have h0 : s = [] := List.eq_nil_of_length_eq_zero (Nat.le_zero.mp hs)
    subst h0
    rfl
  | succ n ih =>
    intro s hs
    by_cases hc : c ∈ s
    · obtain ⟨a, b, hab, ha⟩ := exists_first_occurrence c s hc
      subst hab
      rw [Split_append_cons c a b ha]
      have hb : b.length ≤ n := by
        simp only [List.length_append, List.length_cons] at hs
        omega
      simp [ih b hb, List.count_eq_zero_of_not_mem ha]
    · rw [Split_of_not_mem c s hc]
      simp [List.count_eq_zero_of_not_mem hc]

/-- Splitting a join of pieces that are free of the separator gives the
pieces back. -/
theorem Split_intercalate (c : Char) : ∀ (ps : List Str), ps ≠ [] → (∀ p ∈ ps, c ∉ p) →
    Split ([c].intercalate ps) [c] = ps := by
  intro ps
  induction ps with
  | nil => intro h; exact absurd rfl h
  | cons p qs ih =>
    intro _ hfree
    cases qs with
    | nil =>
      simpa [List.intercalate, List.intersperse] using Split_of_not_mem c p (hfree p (by simp))
    | cons q rs =>
      have hstep : [c].intercalate (p :: q :: rs) = p ++ c :: [c].intercalate (q :: rs) := by
        simp [List.intercalate, List.intersperse]
      rw [hstep, Split_append_cons c p _ (hfree p (by simp))]
      rw [ih (by simp) (fun r hr => hfree r (by simp [hr]))]

/-- A line that ends in the separator has an empty last piece. -/
theorem nil_mem_Split_concat (c : Char) : ∀ (n : Nat) (s : Str), s.length ≤ n →
    [] ∈ Split (s ++ [c]) [c] := by
  intro n
  induction n with
  | zero =>
    intro s hs
    have h0 : s = [] := List.eq_nil_of_length_eq_zero (Nat.le_zero.mp hs)
    subst h0
    have e : ([] : Str) ++ [c] = [] ++ c :: [] := rfl
    rw [e, Split_append_cons c [] [] (by simp)]
    simp
  | succ n ih =>
    intro s hs
    by_cases hc : c ∈ s
    · obtain ⟨a, b, hab, ha⟩ := exists_first_occurrence c s hc
      subst hab
      have hb : b.length ≤ n := by
        simp only [List.length_append, List.length_cons] at hs
        omega
      have e : a ++ c :: b ++ [c] = a ++ c :: (b ++ [c]) := by simp
      rw [e, Split_append_cons c a _ ha]
      exact List.mem_cons_of_mem _ (ih b hb)
    · rw [Split_append_cons c s [] hc]
      simp [Split, genSplit]

/-! ## The pair loop of `parseSensorData` -/

theorem fillMap_cons_pair (pair k v : Str) (pairs : List Str) (m : StrMap)
    (h : Split pair ['='] = [k, v]) :
    fillMap (pair :: pairs) m = fillMap pairs (m.set k v) := by
  simp [fillMap, h]

theorem fillMap_cons_bad (pair : Str) (pairs : List Str) (m : StrMap)
    (h : (Split pair ['=']).length ≠ 2) :
    fillMap (pair :: pairs) m = .error .invalidDataFormat := by
  unfold fillMap
  split
  · rename_i k v hkv
    rw [hkv] at h
    exact absurd rfl h
  · rfl

/-- The pair loop fails on a list with a pair that does not split in two. -/
theorem fillMap_bad (pair : Str) (h : (Split pair ['=']).length ≠ 2) :
    ∀ (pairs : List Str) (m : StrMap), pair ∈ pairs →
      fillMap pairs m = .error .invalidDataFormat := by
  intro pairs
  induction pairs with
  | nil => intro m hm; cases hm
  | cons q qs ih =>
    intro m hm
    by_cases hq : (Split q ['=']).length = 2
    · have hne : pair ≠ q := by
        intro e
        subst e
        exact h hq
      have hqs : pair ∈ qs := by
        rcases List.mem_cons.mp hm with e | e
        · exact absurd e hne
        · exact e
      match hs : Split q ['='], hq with
      | [k, v], _ =>
        rw [fillMap_cons_pair q k v qs m hs]
        exact ih _ hqs
    · exact fillMap_cons_bad q qs m hq

theorem parseSensorData_of_fillMap_error (lib : FloatLib) (data : Str) (e : ParseError)
    (h : fillMap (Split data [',']) emptyMap = .error e) :
    parseSensorData lib data = .error e := by
  simp [parseSensorData, h]

/-- C3. A line in which some comma-separated pair has no "=" or more than one
"=" yields no record and the "invalid data format" error, whatever the other
pairs are; the empty line and every line that ends in a comma are such
lines. -/
theorem parseSensorData_invalid_data_format (lib : FloatLib) (line pair : Str)
    (hmem : pair ∈ Split line [',']) (hbad : pair.count '=' ≠ 1) :
    parseSensorData lib line = .error .invalidDataFormat ∧
    parseSensorData lib [] = .error .invalidDataFormat ∧
    ∀ s : Str, parseSensorData lib (s ++ [',']) = .error .invalidDataFormat := by
  have key : ∀ (l q : Str), q ∈ Split l [','] → q.count '=' ≠ 1 →
      parseSensorData lib l = .error .invalidDataFormat := by
    intro l q hq hc
    apply parseSensorData_of_fillMap_error
    apply fillMap_bad q _ _ _ hq
    rw [Split_length '=' q.length q (Nat.le_refl _)]
    omega
  refine ⟨key line pair hmem hbad, ?_, ?_⟩
  · exact key [] [] (by decide) (by decide)
  · intro s
    exact key (s ++ [',']) [] (nil_mem_Split_concat ',' s.length s (Nat.le_refl _)) (by decide)

/-- C3 at a line whose bad pair follows valid CO2, HUM and TMP pairs. -/
theorem parseSensorData_invalid_data_format_witness :
    parseSensorData decLib "CO2=415,HUM=55.2,TMP=24.0,A=1=2".toList = .error .invalidDataFormat :=
  (parseSensorData_invalid_data_format decLib "CO2=415,HUM=55.2,TMP=24.0,A=1=2".toList
    "A=1=2".toList (by decide) (by decide)).1

/-! ## The map built by the pair loop -/

theorem valuesIn_cons_pair (key k v : Str) (kvs : List (List Str)) :
    valuesIn key ([k, v] :: kvs) = if k = key then v :: valuesIn key kvs else valuesIn key kvs := by
  unfold valuesIn
  by_cases h : k = key <;> simp [List.filterMap_cons, h]

/-- After the pair loop the map holds, for every key, the value of the last
pair with that key, and the earlier content of the map for a key that no pair
has. -/
theorem fillMap_lookup : ∀ (pairs : List Str) (m m1 : StrMap),
    fillMap pairs m = .ok m1 →
    ∀ key : Str, m1 key =
      ((valuesIn key (pairs.map (fun pair => Split pair ['=']))).getLast?).getD (m key) := by
  intro pairs
  induction pairs with
  | nil =>
    intro m m1 h key
    simp only [fillMap, Except.ok.injEq] at h
    subst h
    simp [valuesIn]
  | cons q qs ih =>
    intro m m1 h key
    by_cases hq : (Split q ['=']).length = 2
    · match hs : Split q ['='], hq with
      | [k, v], _ =>
        rw [fillMap_cons_pair q k v qs m hs] at h
        rw [ih _ _ h key, List.map_cons, hs, valuesIn_cons_pair]
        by_cases hk : k = key
        · subst hk
          simp [List.getLast?_cons, StrMap.set]
        · have hk1 : key ≠ k := fun e => hk e.symm
          simp [hk, hk1, StrMap.set]
    · rw [fillMap_cons_bad q qs m hq] at h
      cases h

/-- The pair loop succeeds on pairs that all split in two. -/
theorem fillMap_ok : ∀ (pairs : List Str) (m : StrMap),
    (∀ p ∈ pairs, (Split p ['=']).length = 2) → ∃ m1, fillMap pairs m = .ok m1 := by
  intro pairs
  induction pairs with
  | nil => intro m _; exact ⟨m, rfl⟩
  | cons q qs ih =>
    intro m h
    have hq := h q (by simp)
    match hs : Split q ['='], hq with
    | [k, v], _ =>
      rw [fillMap_cons_pair q k v qs m hs]
      exact ih _ (fun p hp => h p (by simp [hp]))

/-- The pair loop succeeds only on pairs that all split in two. -/
theorem fillMap_ok_pairs (pairs : List Str) (m m1 : StrMap) (h : fillMap pairs m = .ok m1) :
    ∀ p ∈ pairs, (Split p ['=']).length = 2 := by
  intro p hp
  by_contra hbad
  rw [fillMap_bad p hbad pairs m hp] at h
  cases h

/-- The value `parseSensorData` reads for a key: that of the last pair with
the key, the empty string when no pair has it. -/
theorem fillMap_emptyMap (line : Str) (m1 : StrMap)
    (h : fillMap (Split line [',']) emptyMap = .ok m1) (key : Str) :
    m1 key = (lastValue key line).getD [] := by
  rw [fillMap_lookup _ _ _ h key]
  rfl

/-- On a line whose pairs all split in two, `parseSensorData` is the
conversion of the last values of the three keys. -/
theorem parseSensorData_eq_convert (lib : FloatLib) (line : Str)
    (h : ∀ p ∈ Split line [','], (Split p ['=']).length = 2) :
    parseSensorData lib line =
      convert lib ((lastValue keyCO2 line).getD []) ((lastValue keyHUM line).getD [])
        ((lastValue keyTMP line).getD []) := by
  obtain ⟨m1, hm⟩ := fillMap_ok (Split line [',']) emptyMap h
  have e1 := fillMap_emptyMap line m1 hm keyCO2
  have e2 := fillMap_emptyMap line m1 hm keyHUM
  have e3 := fillMap_emptyMap line m1 hm keyTMP
  simp only [parseSensorData, hm, e1, e2, e3, convert]

/-- A line that yields a record has pairs that all split in two. -/
theorem parseSensorData_ok_pairs (lib : FloatLib) (line : Str) (d : SensorData lib.F)
    (h : parseSensorData lib line = .ok d) :
    ∀ p ∈ Split line [','], (Split p ['=']).length = 2 := by
  cases hf : fillMap (Split line [',']) emptyMap with
  | error e =>
    rw [parseSensorData_of_fillMap_error lib line e hf] at h
    cases h
  | ok m1 => exact fillMap_ok_pairs _ _ _ hf

theorem convert_ok_iff (lib : FloatLib) (vc vh vt : Str) (d : SensorData lib.F) :
    convert lib vc vh vt = .ok d ↔
      parseIntValue vc = .ok d.Co2 ∧ parseFloatValue lib vh = .ok d.Hum ∧
        parseFloatValue lib vt = .ok d.Temp := by
  unfold convert
  cases parseIntValue vc with
  | error e => simp
  | ok i =>
    cases parseFloatValue lib vh with
    | error e => simp
    | ok x =>
      cases parseFloatValue lib vt with
      | error e => simp
      | ok y =>
        cases d with
        | mk a b c => simp

theorem parseIntValue_nil : parseIntValue [] = .error .eof := by decide

theorem parseFloatValue_nil (lib : FloatLib) : parseFloatValue lib [] = .error .eof := by
  simp [parseFloatValue, SscanfFloat, SkipSpace, notEOF]

theorem lastValue_of_not_occurs (key line : Str) (h : ¬ keyOccurs key line) :
    lastValue key line = none := by
  unfold keyOccurs at h
  unfold lastValue
  simp only [ne_eq, not_not] at h
  rw [h]
  rfl

theorem keyOccurs_of_scan_int (key line : Str) (i : Int)
    (h : parseIntValue ((lastValue key line).getD []) = .ok i) : keyOccurs key line := by
  by_contra hno
  rw [lastValue_of_not_occurs key line hno] at h
  simp [parseIntValue_nil] at h

theorem keyOccurs_of_scan_float (lib : FloatLib) (key line : Str) (x : lib.F)
    (h : parseFloatValue lib ((lastValue key line).getD []) = .ok x) : keyOccurs key line := by
  by_contra hno
  rw [lastValue_of_not_occurs key line hno] at h
  simp [parseFloatValue_nil] at h

/-! ## C2 and C4: missing and repeated keys -/

/-- C2, as the code has it. On a line whose comma-separated pairs all split
on "=" into two tokens, a record is returned only when CO2, HUM and TMP all
occur; otherwise the error names the first field, in the order CO2, HUM, TMP,
that is missing or whose last value does not scan: a missing field is named
(with the end-of-input cause) when the fields before it scan, and a field
whose value does not scan is named before any later missing field. -/
theorem parseSensorData_missing_key (lib : FloatLib) (line : Str)
    (hpairs : ∀ p ∈ Split line [','], (Split p ['=']).length = 2) :
    (∀ d, parseSensorData lib line = .ok d →
      keyOccurs keyCO2 line ∧ keyOccurs keyHUM line ∧ keyOccurs keyTMP line) ∧
    ((¬ keyOccurs keyCO2 line ∨ ¬ keyOccurs keyHUM line ∨ ¬ keyOccurs keyTMP line) →
      ∃ e, parseSensorData lib line = .error e ∧ e ≠ .invalidDataFormat) ∧
    (¬ keyOccurs keyCO2 line → parseSensorData lib line = .error (.co2 .eof)) ∧
    (∀ e, parseIntValue ((lastValue keyCO2 line).getD []) = .error e →
      parseSensorData lib line = .error (.co2 e)) ∧
    (∀ i, parseIntValue ((lastValue keyCO2 line).getD []) = .ok i →
      (¬ keyOccurs keyHUM line → parseSensorData lib line = .error (.hum .eof)) ∧
      (∀ e, parseFloatValue lib ((lastValue keyHUM line).getD []) = .error e →
        parseSensorData lib line = .error (.hum e)) ∧
      (∀ h, parseFloatValue lib ((lastValue keyHUM line).getD []) = .ok h →
        (¬ keyOccurs keyTMP line → parseSensorData lib line = .error (.tmp .eof)) ∧
        (∀ e, parseFloatValue lib ((lastValue keyTMP line).getD []) = .error e →
          parseSensorData lib line = .error (.tmp e)))) := by
  have hc := parseSensorData_eq_convert lib line hpairs
  have hall : ∀ d, parseSensorData lib line = .ok d →
      keyOccurs keyCO2 line ∧ keyOccurs keyHUM line ∧ keyOccurs keyTMP line := by
    intro d hd
    rw [hc, convert_ok_iff] at hd
    exact ⟨keyOccurs_of_scan_int _ _ _ hd.1, keyOccurs_of_scan_float lib _ _ _ hd.2.1,
      keyOccurs_of_scan_float lib _ _ _ hd.2.2⟩
  refine ⟨hall, ?_, ?_, ?_, ?_⟩
  · intro hmiss
    cases hres : parseSensorData lib line with
    | ok d =>
      obtain ⟨h1, h2, h3⟩ := hall d hres
      rcases hmiss with h | h | h
      · exact absurd h1 h
      · exact absurd h2 h
      · exact absurd h3 h
    | error e =>
      refine ⟨e, rfl, ?_⟩
      intro he
      subst he
      rw [hc] at hres
      unfold convert at hres
      cases h1 : parseIntValue ((lastValue keyCO2 line).getD []) with
      | error e1 => simp [h1] at hres
      | ok i =>
        cases h2 : parseFloatValue lib ((lastValue keyHUM line).getD []) with
        | error e2 => simp [h1, h2] at hres
        | ok x =>
          cases h3 : parseFloatValue lib ((lastValue keyTMP line).getD []) with
          | error e3 => simp [h1, h2, h3] at hres
          | ok y => simp [h1, h2, h3] at hres
  · intro hno
    rw [hc, lastValue_of_not_occurs _ _ hno]
    simp [convert, parseIntValue_nil]
  · intro e he
    rw [hc]
    simp [convert, he]
  · intro i hi
    refine ⟨?_, ?_, ?_⟩
    · intro hno
      rw [hc, lastValue_of_not_occurs keyHUM _ hno]
      simp [convert, hi, parseFloatValue_nil]
    · intro e he
      rw [hc]
      simp [convert, hi, he]
    · intro h hh
      refine ⟨?_, ?_⟩
      · intro hno
        rw [hc, lastValue_of_not_occurs keyTMP _ hno]
        simp [convert, hi, hh, parseFloatValue_nil]
      · intro e he
        rw [hc]
        simp [convert, hi, hh, he]

/-- C2 at "CO2=415,HUM=55.2": TMP is missing and is the field the error
names. -/
theorem parseSensorData_missing_key_witness :
    parseSensorData decLib "CO2=415,HUM=55.2".toList = .error (.tmp .eof) :=
  (((parseSensorData_missing_key decLib "CO2=415,HUM=55.2".toList (by decide)).2.2.2.2
    415 (by decide)).2.2 (.fin false 552 1) (by decide)).1 (by decide)

/-- C2 fails as stated: the pairs of "CO2=abc,HUM=1" all split in two and TMP
is its first missing key, yet the error names CO2. -/
theorem parseSensorData_missing_key_counterexample :
    (∀ p ∈ Split "CO2=abc,HUM=1".toList [','], (Split p ['=']).length = 2) ∧
    firstMissing "CO2=abc,HUM=1".toList = some keyTMP ∧
    parseSensorData decLib "CO2=abc,HUM=1".toList = .error (.co2 .expectedInteger) ∧
    (ParseError.co2 ScanError.expectedInteger).field ≠ firstMissing "CO2=abc,HUM=1".toList := by
  decide

/-- C4. When a line yields a record, each field is the conversion of the value
of the last pair with its key; and every line whose pairs split in two and
whose last values for CO2, HUM and TMP are the same yields the same record,
whatever the earlier pairs with these keys hold. -/
theorem parseSensorData_last_value (lib : FloatLib) (line : Str) (d : SensorData lib.F)
    (h : parseSensorData lib line = .ok d) :
    (∀ v, lastValue keyCO2 line = some v → parseIntValue v = .ok d.Co2) ∧
    (∀ v, lastValue keyHUM line = some v → parseFloatValue lib v = .ok d.Hum) ∧
    (∀ v, lastValue keyTMP line = some v → parseFloatValue lib v = .ok d.Temp) ∧
    (∀ other : Str, (∀ p ∈ Split other [','], (Split p ['=']).length = 2) →
      lastValue keyCO2 other = lastValue keyCO2 line →
      lastValue keyHUM other = lastValue keyHUM line →
      lastValue keyTMP other = lastValue keyTMP line →
      parseSensorData lib other = .ok d) := by
  have hp := parseSensorData_ok_pairs lib line d h
  have hc := parseSensorData_eq_convert lib line hp
  have hd := h
  rw [hc, convert_ok_iff] at hd
  refine ⟨?_, ?_, ?_, ?_⟩
  · intro v hv
    rw [hv] at hd
    exact hd.1
  · intro v hv
    rw [hv] at hd
    exact hd.2.1
  · intro v hv
    rw [hv] at hd
    exact hd.2.2
  · intro other ho h1 h2 h3
    rw [parseSensorData_eq_convert lib other ho, h1, h2, h3, ← hc]
    exact h

/-- C4 at "CO2=100,CO2=200,HUM=50,TMP=20": the last CO2 value is "200", the
field Co2 is its conversion, and "CO2=abc,CO2=200,HUM=50,TMP=20" yields the
same record. -/
theorem parseSensorData_last_value_witness :
    parseSensorData decLib "CO2=100,CO2=200,HUM=50,TMP=20".toList =
      .ok ⟨200, .fin false 50 0, .fin false 20 0⟩ ∧
    lastValue keyCO2 "CO2=100,CO2=200,HUM=50,TMP=20".toList = some "200".toList ∧
    parseIntValue "200".toList = .ok 200 ∧
    parseSensorData decLib "CO2=abc,CO2=200,HUM=50,TMP=20".toList =
      .ok ⟨200, .fin false 50 0, .fin false 20 0⟩ :=
  have h := parseSensorData_last_value decLib "CO2=100,CO2=200,HUM=50,TMP=20".toList
    ⟨200, .fin false 50 0, .fin false 20 0⟩ (by decide)
  ⟨by decide, by decide, h.1 "200".toList (by decide),
    h.2.2.2 "CO2=abc,CO2=200,HUM=50,TMP=20".toList (by decide) (by decide) (by decide)
      (by decide)⟩

/-! ## C8 and C9: the device locator -/

/-- C8. For every directory listing, `getDevicePath` returns "/dev/" followed
by the first name with the prefix "tty.usbmodem", and the empty string when no
name has that prefix. -/
theorem getDevicePath_first_match (files : List Str) :
    getDevicePath files =
      match files.find? (fun name => HasPrefix name ttyUsbmodem) with
      | some name => "/dev/".toList ++ name
      | none => [] := by
  induction files with
  | nil => rfl
  | cons name rest ih =>
    by_cases h : HasPrefix name ttyUsbmodem = true
    · simp [getDevicePath, matchTtyUsbmodem, List.find?, h]
    · simp only [Bool.not_eq_true] at h
      simp [getDevicePath, matchTtyUsbmodem, List.find?, h, ih]

theorem getDevicePath_no_match (files : List Str)
    (h : ∀ name ∈ files, HasPrefix name ttyUsbmodem = false) :
    getDevicePath files = [] := by
  induction files with
  | nil => rfl
  | cons name rest ih =>
    have h1 := h name (by simp)
    simp [getDevicePath, matchTtyUsbmodem, h1, ih (fun n hn => h n (by simp [hn]))]

/-- C9. When no entry of the device directory has the prefix "tty.usbmodem",
the locator returns the empty path and `main` ends in `log.Fatal` at
`serial.OpenPort`: it writes no command and reads nothing. -/
theorem main_without_device (lib : FloatLib) (w : World) (files : List Str)
    (hdir : w.readDir = .ok files)
    (hno : ∀ name ∈ files, HasPrefix name ttyUsbmodem = false) :
    getDevicePath files = [] ∧
    main lib w = [.logFatal .enoent] ∧
    (∀ cmd, Event.write cmd ∉ main lib w) ∧
    (∀ data, Event.read data ∉ main lib w) := by
  have hp := getDevicePath_no_match files hno
  have hm : main lib w = [.logFatal .enoent] := by
    simp [main, hdir, hp, OpenPort]
  refine ⟨hp, hm, ?_, ?_⟩
  · intro cmd
    simp [hm]
  · intro data
    simp [hm]

/-- C9 in a world whose device directory holds no USB modem, whose files can
all be opened and written, and whose port would deliver a record. -/
theorem main_without_device_witness :
    main decLib
      { readDir := .ok ["null".toList, "tty.Bluetooth".toList]
        openFile := fun _ => .ok ()
        write := fun _ => .ok ()
        reads := [.ok "CO2=415,HUM=55.2,TMP=24.0\r\n".toList] } = [.logFatal .enoent] :=
  (main_without_device decLib
    { readDir := .ok ["null".toList, "tty.Bluetooth".toList]
      openFile := fun _ => .ok ()
      write := fun _ => .ok ()
      reads := [.ok "CO2=415,HUM=55.2,TMP=24.0\r\n".toList] }
    ["null".toList, "tty.Bluetooth".toList] rfl (by decide)).2.1

/-! ## The first segment of a chunk -/

theorem Index_decomp (sep : Str) : ∀ (s : Str) (m : Nat), Index s sep = some m →
    s = s.take m ++ (sep ++ s.drop (m + sep.length)) := by
  intro s
  induction s with
  | nil =>
    intro m h
    by_cases hs : sep = []
    · simp [hs]
    · simp [Index, hs] at h
  | cons c cs ih =>
    intro m h
    by_cases hp : sep.isPrefixOf (c :: cs) = true
    · simp only [Index, hp, if_true, Option.some.injEq] at h
      subst h
      have hpre : sep <+: c :: cs := List.isPrefixOf_iff_prefix.mp hp
      simpa using (List.prefix_iff_eq_append.mp hpre).symm
    · cases hI : Index cs sep with
      | none => simp [Index, hp, hI] at h
      | some k =>
        simp [Index, hp, hI] at h
        subst h
        have e : k + 1 + sep.length = (k + sep.length) + 1 := by omega
        rw [e, List.take_succ_cons, List.drop_succ_cons, List.cons_append, ← ih k hI]

theorem Index_take (sep : Str) (hsep : sep ≠ []) : ∀ (s : Str) (m : Nat),
    Index s sep = some m → Index (s.take m) sep = none := by
  intro s
  induction s with
  | nil =>
    intro m _
    simpa using Index_nil sep hsep
  | cons c cs ih =>
    intro m h
    by_cases hp : sep.isPrefixOf (c :: cs) = true
    · simp only [Index, hp, if_true, Option.some.injEq] at h
      subst h
      simpa using Index_nil sep hsep
    · cases hI : Index cs sep with
      | none => simp [Index, hp, hI] at h
      | some k =>
        simp [Index, hp, hI] at h
        subst h
        have hnp : ¬ sep.isPrefixOf (c :: cs.take k) = true := by
          intro hq
          apply hp
          have h1 : sep <+: c :: cs.take k := List.isPrefixOf_iff_prefix.mp hq
          have h2 : c :: cs.take k <+: c :: cs := by
            rw [List.prefix_cons_inj]
            exact List.take_prefix k cs
          exact List.isPrefixOf_iff_prefix.mpr (h1.trans h2)
        simp [List.take_succ_cons, Index, hnp, ih k hI]

theorem isPrefixOf_crlf_cons_cons (x y : Char) (r : Str) :
    List.isPrefixOf crlf (x :: y :: r) = (x == '\r' && y == '\n') := by
  simp only [crlf, List.isPrefixOf, Bool.and_true]
  rw [Bool.beq_comm, Bool.beq_comm (a := '\n')]

/-- A terminator put after a string without terminator is the first one. -/
theorem Index_crlf_append (b : Str) : ∀ a : Str, Index a crlf = none →
    Index (a ++ (crlf ++ b)) crlf = some a.length := by
  intro a
  induction a with
  | nil =>
    intro _
    simp [crlf, Index, List.isPrefixOf]
  | cons x xs ih =>
    intro h
    have hp : ¬ List.isPrefixOf crlf (x :: xs) = true := by
      intro hq
      simp [Index, hq] at h
    have hxs : Index xs crlf = none := by
      cases hI : Index xs crlf with
      | none => rfl
      | some k => simp [Index, hp, hI] at h
    have hp2 : ¬ List.isPrefixOf crlf (x :: (xs ++ (crlf ++ b))) = true := by
      cases xs with
      | nil =>
        simp only [List.nil_append]
        have e : crlf ++ b = '\r' :: '\n' :: b := rfl
        rw [e, isPrefixOf_crlf_cons_cons]
        simp
      | cons y ys =>
        rw [isPrefixOf_crlf_cons_cons] at hp
        simpa [isPrefixOf_crlf_cons_cons] using hp
    simp [Index, hp2, ih hxs]

theorem Split_head (sep : Str) (hsep : sep ≠ []) (s : Str) (m : Nat)
    (h : Index s sep = some m) : (Split s sep)[0]? = some (s.take m) := by
  unfold Split
  cases s with
  | nil =>
    rw [Index_nil sep hsep] at h
    cases h
  | cons c cs => simp [genSplit, h]

theorem crlf_ne_nil : crlf ≠ [] := by decide

theorem Index_crlf_cons (x : Char) (r : Str) (hx : x ≠ '\r') :
    Index (x :: r) crlf =
      match Index r crlf with
      | some m => some (m + 1)
      | none => none := by
  have hp : ¬ List.isPrefixOf crlf (x :: r) = true := by
    cases r with
    | nil => simp [crlf, List.isPrefixOf]
    | cons y ys => simp [isPrefixOf_crlf_cons_cons, hx]
  rw [Index]
  simp [hp]

/-- An accepted chunk is "CO2" followed by a tail that holds the terminator. -/
theorem accepted_shape (data : Str) (hc : Contains data crlf = true)
    (hp : HasPrefix data keyCO2 = true) :
    ∃ (tail : Str) (k : Nat), data = 'C' :: 'O' :: '2' :: tail ∧ Index tail crlf = some k ∧
      Index data crlf = some (k + 3) := by
  have hpre : keyCO2 <+: data := List.isPrefixOf_iff_prefix.mp hp
  obtain ⟨tail, ht⟩ := hpre
  have hd : data = 'C' :: 'O' :: '2' :: tail := by
    rw [← ht]
    rfl
  subst hd
  have hI3 : Index ('C' :: 'O' :: '2' :: tail) crlf =
      match Index tail crlf with
      | some m => some (m + 3)
      | none => none := by
    rw [Index_crlf_cons 'C' _ (by decide), Index_crlf_cons 'O' _ (by decide),
      Index_crlf_cons '2' _ (by decide)]
    cases Index tail crlf <;> rfl
  unfold Contains at hc
  cases hI : Index tail crlf with
  | none =>
    rw [hI3, hI] at hc
    cases hc
  | some k =>
    refine ⟨tail, k, rfl, hI, ?_⟩
    rw [hI3, hI]

/-- The first segment of an accepted chunk: it is what stands before the
first terminator, it starts with "CO2" and holds no terminator. -/
theorem accepted_segment (data : Str) (hc : Contains data crlf = true)
    (hp : HasPrefix data keyCO2 = true) :
    ∃ (line rest : Str), (Split data crlf)[0]? = some line ∧ line ≠ [] ∧
      HasPrefix line keyCO2 = true ∧ data = line ++ (crlf ++ rest) ∧
      Index line crlf = none := by
  obtain ⟨tail, k, hd, _, hI⟩ := accepted_shape data hc hp
  refine ⟨data.take (k + 3), data.drop (k + 3 + crlf.length),
    Split_head crlf crlf_ne_nil data _ hI, ?_, ?_, Index_decomp crlf data _ hI,
    Index_take crlf crlf_ne_nil data _ hI⟩
  · subst hd
    simp
  · subst hd
    simp [HasPrefix, keyCO2, List.isPrefixOf]

theorem processChunk_of_segment (lib : FloatLib) (data line : Str)
    (hc : Contains data crlf = true) (hp : HasPrefix data keyCO2 = true)
    (h0 : (Split data crlf)[0]? = some line) (hne : line ≠ []) :
    processChunk lib data =
      .parse line ::
        match parseSensorData lib line with
        | .error err => [.logPrintln (.failedToParse err)]
        | .ok sensorData =>
          match jsonMarshalIndent lib sensorData with
          | none => [.logPrintln .failedToMarshal]
          | some jsonData => [.println jsonData] := by
  simp [processChunk, hc, hp, h0, hne]

theorem processChunk_of_rejected (lib : FloatLib) (data : Str)
    (h : ¬ (Contains data crlf = true ∧ HasPrefix data keyCO2 = true)) :
    processChunk lib data = [] := by
  unfold processChunk
  by_cases hc : Contains data crlf = true
  · have hp : ¬ HasPrefix data keyCO2 = true := fun hq => h ⟨hc, hq⟩
    simp [hc, hp]
  · simp [hc]

/-- What follows the call of `parseSensorData` in an iteration. -/
theorem processChunk_tail (lib : FloatLib) (line : Str) :
    ∀ ev ∈ (match parseSensorData lib line with
      | .error err => [Event.logPrintln (.failedToParse err)]
      | .ok sensorData =>
        match jsonMarshalIndent lib sensorData with
        | none => [Event.logPrintln .failedToMarshal]
        | some jsonData => [Event.println jsonData] : List (Event lib.F)),
      ev ≠ .panicIndex ∧ (∀ l, ev ≠ .parse l) ∧ (∀ e, ev ≠ .logFatal e) ∧
        (∀ c, ev ≠ .write c) ∧ (∀ c, ev ≠ .read c) := by
  intro ev hev
  cases hparse : parseSensorData lib line with
  | error err =>
    simp only [hparse, List.mem_singleton] at hev
    subst hev
    simp
  | ok d =>
    cases hj : jsonMarshalIndent lib d with
    | none =>
      simp only [hparse, hj, List.mem_singleton] at hev
      subst hev
      simp
    | some j =>
      simp only [hparse, hj, List.mem_singleton] at hev
      subst hev
      simp

theorem firstSegment_eq (data line : Str) (h0 : (Split data crlf)[0]? = some line) :
    firstSegment data = line := by
  unfold firstSegment
  cases hs : Split data crlf with
  | nil => simp [hs] at h0
  | cons x xs =>
    rw [hs] at h0
    simpa using h0

/-- The output of an iteration is the rendering the specification names. -/
theorem printed_processChunk (lib : FloatLib) (data : Str) :
    printed (processChunk lib data) = (rendered lib data).toList := by
  by_cases hacc : Contains data crlf = true ∧ HasPrefix data keyCO2 = true
  · obtain ⟨line, rest, h0, hne, _, _, _⟩ := accepted_segment data hacc.1 hacc.2
    rw [processChunk_of_segment lib data line hacc.1 hacc.2 h0 hne]
    unfold rendered
    rw [if_pos hacc, firstSegment_eq data line h0]
    cases hparse : parseSensorData lib line with
    | error err => simp [printed]
    | ok d =>
      cases hj : jsonMarshalIndent lib d with
      | none => simp [printed, hj]
      | some j => simp [printed, hj]
  · rw [processChunk_of_rejected lib data hacc]
    unfold rendered
    rw [if_neg hacc]
    rfl

theorem printed_append {F : Type} (a b : List (Event F)) :
    printed (a ++ b) = printed a ++ printed b := by
  simp [printed, List.filterMap_append]

theorem received_append {F : Type} (a b : List (Event F)) :
    received (a ++ b) = received a ++ received b := by
  simp [received, List.filterMap_append]

/-- An iteration ends neither in `log.Fatal` nor in a panic, and reads
nothing more. -/
theorem processChunk_events (lib : FloatLib) (data : Str) :
    ∀ ev ∈ processChunk lib data,
      ev ≠ .panicIndex ∧ (∀ e, ev ≠ .logFatal e) ∧ (∀ c, ev ≠ .read c) := by
  intro ev hev
  by_cases hacc : Contains data crlf = true ∧ HasPrefix data keyCO2 = true
  · obtain ⟨line, rest, h0, hne, _, _, _⟩ := accepted_segment data hacc.1 hacc.2
    rw [processChunk_of_segment lib data line hacc.1 hacc.2 h0 hne] at hev
    rcases List.mem_cons.mp hev with e | e
    · subst e
      simp
    · have h := processChunk_tail lib line ev e
      exact ⟨h.1, h.2.2.1, h.2.2.2.2⟩
  · rw [processChunk_of_rejected lib data hacc] at hev
    cases hev

theorem received_processChunk (lib : FloatLib) (data : Str) :
    received (processChunk lib data) = [] := by
  unfold received
  rw [List.filterMap_eq_nil_iff]
  intro ev hev
  have h := (processChunk_events lib data ev hev).2.2
  cases ev <;> simp at h ⊢

/-! ## C5, C6, C7 and C10: the read loop -/

/-- C10. For every chunk that contains "\r\n" and begins with "CO2", the
first element of the split on "\r\n" exists, is not empty and begins with
"CO2": the index `[0]` does not panic and the iteration reaches the call of
`parseSensorData`. -/
theorem accepted_first_element (lib : FloatLib) (data : Str)
    (hc : Contains data crlf = true) (hp : HasPrefix data keyCO2 = true) :
    ∃ line : Str, (Split data crlf)[0]? = some line ∧ line ≠ [] ∧
      HasPrefix line keyCO2 = true ∧
      Event.panicIndex ∉ processChunk lib data ∧
      Event.parse line ∈ processChunk lib data := by
  obtain ⟨line, rest, h0, hne, hpl, _, _⟩ := accepted_segment data hc hp
  refine ⟨line, h0, hne, hpl, ?_, ?_⟩
  · intro hmem
    exact (processChunk_events lib data _ hmem).1 rfl
  · rw [processChunk_of_segment lib data line hc hp h0 hne]
    exact List.mem_cons_self _ _

/-- C10 at the 27-byte chunk "CO2=415,HUM=55.2,TMP=24.0\r\n". -/
theorem accepted_first_element_witness :
    ∃ line : Str, (Split "CO2=415,HUM=55.2,TMP=24.0\r\n".toList crlf)[0]? = some line ∧
      line ≠ [] ∧ HasPrefix line keyCO2 = true ∧
      Event.panicIndex ∉ processChunk decLib "CO2=415,HUM=55.2,TMP=24.0\r\n".toList ∧
      Event.parse line ∈ processChunk decLib "CO2=415,HUM=55.2,TMP=24.0\r\n".toList :=
  accepted_first_element decLib "CO2=415,HUM=55.2,TMP=24.0\r\n".toList (by decide) (by decide)

/-- C5. The read loop calls `parseSensorData` for a chunk exactly when the
chunk contains "\r\n" and begins with "CO2"; for any other chunk the iteration
does nothing: no call, no output, no log line. -/
theorem processChunk_filter (lib : FloatLib) (data : Str) :
    ((∃ line, Event.parse line ∈ processChunk lib data) ↔
      (Contains data crlf = true ∧ HasPrefix data keyCO2 = true)) ∧
    (¬ (Contains data crlf = true ∧ HasPrefix data keyCO2 = true) →
      processChunk lib data = []) := by
  refine ⟨⟨?_, ?_⟩, processChunk_of_rejected lib data⟩
  · intro ⟨line, hl⟩
    by_contra hacc
    rw [processChunk_of_rejected lib data hacc] at hl
    cases hl
  · intro hacc
    obtain ⟨line, rest, h0, hne, _, _, _⟩ := accepted_segment data hacc.1 hacc.2
    refine ⟨line, ?_⟩
    rw [processChunk_of_segment lib data line hacc.1 hacc.2 h0 hne]
    exact List.mem_cons_self _ _

theorem parsed_cons_parse {F : Type} (line : Str) (t : List (Event F)) :
    parsed (Event.parse line :: t) = line :: parsed t := rfl

theorem parsed_processChunk (lib : FloatLib) (data line : Str)
    (hc : Contains data crlf = true) (hp : HasPrefix data keyCO2 = true)
    (h0 : (Split data crlf)[0]? = some line) (hne : line ≠ []) :
    parsed (processChunk lib data) = [line] := by
  rw [processChunk_of_segment lib data line hc hp h0 hne, parsed_cons_parse]
  congr 1
  unfold parsed
  rw [List.filterMap_eq_nil_iff]
  intro ev hev
  have h := (processChunk_tail lib line ev hev).2.1
  cases ev <;> simp at h ⊢

/-- A chunk made of a segment, the terminator and anything else is processed
as the segment alone decides. -/
theorem processChunk_segment_rest (line rest : Str)
    (hpl : HasPrefix line keyCO2 = true) (hno : Index line crlf = none) :
    Contains (line ++ (crlf ++ rest)) crlf = true ∧
    HasPrefix (line ++ (crlf ++ rest)) keyCO2 = true ∧
    (Split (line ++ (crlf ++ rest)) crlf)[0]? = some line := by
  have hI := Index_crlf_append rest line hno
  refine ⟨?_, ?_, ?_⟩
  · simp [Contains, hI]
  · have h1 : keyCO2 <+: line := List.isPrefixOf_iff_prefix.mp hpl
    exact List.isPrefixOf_iff_prefix.mpr (h1.trans (List.prefix_append _ _))
  · rw [Split_head crlf crlf_ne_nil _ _ hI, List.take_left]

/-- C6. For an accepted chunk, the string passed to `parseSensorData` is the
part of the chunk before its first "\r\n": the chunk is that line, the
terminator and a rest, the line holds no terminator, and it is the one
argument of the parser. The rest is discarded: with any other rest the
iteration does the same, and the iterations that follow are those of the
later reads alone. -/
theorem processChunk_line (lib : FloatLib) (data : Str)
    (hc : Contains data crlf = true) (hp : HasPrefix data keyCO2 = true) :
    ∃ line rest : Str, data = line ++ (crlf ++ rest) ∧ Contains line crlf = false ∧
      parsed (processChunk lib data) = [line] ∧
      (∀ other : Str, processChunk lib (line ++ (crlf ++ other)) = processChunk lib data) ∧
      (∀ (other : Str) (reads : List (Except OSError Str)),
        readLoop lib (.ok (line ++ (crlf ++ other)) :: reads) =
          .read (line ++ (crlf ++ other)) :: (processChunk lib data ++ readLoop lib reads)) := by
  obtain ⟨line, rest, h0, hne, hpl, hd, hno⟩ := accepted_segment data hc hp
  have hsame : ∀ other : Str,
      processChunk lib (line ++ (crlf ++ other)) = processChunk lib data := by
    intro other
    obtain ⟨c1, p1, s1⟩ := processChunk_segment_rest line other hpl hno
    rw [processChunk_of_segment lib _ line c1 p1 s1 hne,
      processChunk_of_segment lib data line hc hp h0 hne]
  refine ⟨line, rest, hd, ?_, parsed_processChunk lib data line hc hp h0 hne, hsame, ?_⟩
  · simp [Contains, hno]
  · intro other reads
    simp only [readLoop, hsame other]

/-- C6 at a chunk with bytes after the terminator: the parser receives
"CO2=415,HUM=55.2" and the iteration shows nothing of "CO2=9". -/
theorem processChunk_line_witness :
    ∃ line rest : Str, "CO2=415,HUM=55.2\r\nCO2=9".toList = line ++ (crlf ++ rest) ∧
      Contains line crlf = false ∧
      parsed (processChunk decLib "CO2=415,HUM=55.2\r\nCO2=9".toList) = [line] ∧
      (∀ other : Str, processChunk decLib (line ++ (crlf ++ other)) =
        processChunk decLib "CO2=415,HUM=55.2\r\nCO2=9".toList) ∧
      (∀ (other : Str) (reads : List (Except OSError Str)),
        readLoop decLib (.ok (line ++ (crlf ++ other)) :: reads) =
          .read (line ++ (crlf ++ other)) ::
            (processChunk decLib "CO2=415,HUM=55.2\r\nCO2=9".toList ++ readLoop decLib reads)) :=
  processChunk_line decLib "CO2=415,HUM=55.2\r\nCO2=9".toList (by decide) (by decide)

/-- The read loop over successful reads: no `log.Fatal`, no panic. -/
theorem readLoop_events (lib : FloatLib) : ∀ (chunks : List Str),
    ∀ ev ∈ readLoop lib (chunks.map .ok), ev ≠ .panicIndex ∧ ∀ e, ev ≠ .logFatal e := by
  intro chunks
  induction chunks with
  | nil => intro ev hev; cases hev
  | cons c cs ih =>
    intro ev hev
    simp only [List.map_cons, readLoop, List.mem_cons, List.mem_append] at hev
    rcases hev with e | e | e
    · subst e
      simp
    · have h := processChunk_events lib c ev e
      exact ⟨h.1, h.2.1⟩
    · exact ih ev e

/-- C7, as the code has it. Over any finite sequence of successful reads the
read loop takes every chunk and never ends in `log.Fatal` or a panic; a chunk
whose line does not parse writes nothing to standard output; and the records
written are, in arrival order, those of the accepted chunks whose line parses
and whose record `json.MarshalIndent` renders. -/
theorem readLoop_output (lib : FloatLib) (chunks : List Str) :
    (∀ e, Event.logFatal e ∉ readLoop lib (chunks.map .ok)) ∧
    Event.panicIndex ∉ readLoop lib (chunks.map .ok) ∧
    received (readLoop lib (chunks.map .ok)) = chunks ∧
    (∀ data : Str, (∀ d, parseSensorData lib (firstSegment data) ≠ .ok d) →
      printed (processChunk lib data) = []) ∧
    printed (readLoop lib (chunks.map .ok)) = chunks.filterMap (rendered lib) := by
  refine ⟨?_, ?_, ?_, ?_, ?_⟩
  · intro e hmem
    exact (readLoop_events lib chunks _ hmem).2 e rfl
  · intro hmem
    exact (readLoop_events lib chunks _ hmem).1 rfl
  · induction chunks with
    | nil => rfl
    | cons c cs ih =>
      simp only [List.map_cons, readLoop]
      have e : received (Event.read c :: (processChunk lib c ++ readLoop lib (cs.map .ok))) =
          c :: received (processChunk lib c ++ readLoop lib (cs.map .ok)) := rfl
      rw [e, received_append, received_processChunk, ih]
      rfl
  · intro data hfail
    rw [printed_processChunk]
    unfold rendered
    split
    · cases hparse : parseSensorData lib (firstSegment data) with
      | error err => rfl
      | ok d => exact absurd hparse (hfail d)
    · rfl
  · induction chunks with
    | nil => rfl
    | cons c cs ih =>
      simp only [List.map_cons, readLoop]
      have e : printed (Event.read c :: (processChunk lib c ++ readLoop lib (cs.map .ok))) =
          printed (processChunk lib c ++ readLoop lib (cs.map .ok)) := rfl
      rw [e, printed_append, printed_processChunk, ih]
      cases hr : rendered lib c with
      | none => simp [List.filterMap_cons, hr]
      | some j => simp [List.filterMap_cons, hr]

/-- C7 fails as stated: the chunk "CO2=1,HUM=NaN,TMP=1\r\n" is accepted and
its line parses into a record, yet nothing is written to standard output,
because `json.MarshalIndent` rejects NaN. -/
theorem readLoop_output_counterexample :
    accepted "CO2=1,HUM=NaN,TMP=1\r\n".toList = true ∧
    parseSensorData decLib (firstSegment "CO2=1,HUM=NaN,TMP=1\r\n".toList) =
      .ok ⟨1, .nan, .fin false 1 0⟩ ∧
    printed (readLoop decLib [.ok "CO2=1,HUM=NaN,TMP=1\r\n".toList]) = [] ∧
    readLoop decLib [.ok "CO2=1,HUM=NaN,TMP=1\r\n".toList] =
      [.read "CO2=1,HUM=NaN,TMP=1\r\n".toList, .parse "CO2=1,HUM=NaN,TMP=1".toList,
        .logPrintln .failedToMarshal] := by
  decide

/-- The end-to-end scenario of the specification: a record chunk followed by
an echo chunk writes the one record. -/
theorem readLoop_scenario :
    printed (readLoop decLib
      [.ok "CO2=415,HUM=55.2,TMP=24.0\r\n".toList, .ok "ECHO=STA\r\n...garbage...".toList]) =
      [⟨415, .fin false 552 1, .fin false 240 1⟩] := by
  decide

/-! ## Scanning literals -/

/-- What the scanner needs to know of a decimal digit. -/
theorem digit_facts (c : Char) (h : c ∈ decimalDigits) :
    ('0' ≤ c ∧ c ≤ '9') ∧ c.toNat - '0'.toNat ≤ 9 ∧ isSpace c = false ∧ c ≠ '\r' ∧
      c ≠ '\n' ∧ c ≠ '+' ∧ c ≠ '-' ∧ c ≠ 'p' ∧ c ≠ 'x' ∧ c ≠ 'X' ∧ sign.contains c = false ∧
      decimalDigits.contains c = true ∧ (decimalDigits ++ ['_']).contains c = true ∧
      "nN".toList.contains c = false ∧ "iI".toList.contains c = false ∧
      "xX".toList.contains c = false ∧ period.contains c = false ∧
      exponent.contains c = false := by
  simp only [decimalDigits, String.toList, List.mem_cons, List.mem_nil_iff, or_false] at h
  rcases h with rfl | rfl | rfl | rfl | rfl | rfl | rfl | rfl | rfl | rfl <;> decide

theorem foldl_digits_ge : ∀ (ds : Str) (n : Nat),
    n ≤ ds.foldl (fun n c => 10 * n + (c.toNat - '0'.toNat)) n := by
  intro ds
  induction ds with
  | nil => intro n; exact Nat.le_refl _
  | cons c cs ih =>
    intro n
    have h := ih (10 * n + (c.toNat - '0'.toNat))
    simp only [List.foldl_cons]
    omega

/-- The digit loop of `ParseUint` computes the decimal value as long as it
fits `uint64`. -/
theorem parseUintLoop_digits : ∀ (ds : Str) (n : Nat), (∀ c ∈ ds, c ∈ decimalDigits) →
    ds.foldl (fun n c => 10 * n + (c.toNat - '0'.toNat)) n ≤ maxUint64 →
    parseUintLoop n ds = .ok (ds.foldl (fun n c => 10 * n + (c.toNat - '0'.toNat)) n) := by
  intro ds
  induction ds with
  | nil => intro n _ _; rfl
  | cons c cs ih =>
    intro n hd hle
    have hc := digit_facts c (hd c (by simp))
    have hge := foldl_digits_ge cs (10 * n + (c.toNat - '0'.toNat))
    simp only [List.foldl_cons] at hle ⊢
    have hmax : maxUint64 = 18446744073709551615 := rfl
    have hpow : (2 : Nat) ^ 64 = 18446744073709551616 := by norm_num
    have h1 : ¬ n ≥ maxUint64 / 10 + 1 := by
      rw [hmax]
      omega
    have h2 : (n * 10) % 2 ^ 64 = n * 10 := by
      rw [hpow]
      apply Nat.mod_eq_of_lt
      omega
    have h3 : (n * 10 + (c.toNat - '0'.toNat)) % 2 ^ 64 = 10 * n + (c.toNat - '0'.toNat) := by
      rw [hpow, Nat.mod_eq_of_lt (by omega)]
      omega
    have h4 : ¬ (10 * n + (c.toNat - '0'.toNat) < n * 10 ∨
        10 * n + (c.toNat - '0'.toNat) > maxUint64) := by
      rw [hmax]
      omega
    unfold parseUintLoop
    simp only [hc.1, and_self, if_true, h1, if_false, h2, h3, h4]
    exact ih _ (fun x hx => hd x (by simp [hx])) hle

theorem ParseUint_digits (ds : Str) (hne : ds ≠ []) (hd : ∀ c ∈ ds, c ∈ decimalDigits)
    (hle : decimalValue ds ≤ maxUint64) : ParseUint ds = .ok (decimalValue ds) := by
  unfold ParseUint
  rw [if_neg hne]
  exact parseUintLoop_digits ds 0 hd hle

theorem ParseInt_unsigned (c : Char) (cs : Str) (n : Nat) (h1 : c ≠ '+') (h2 : c ≠ '-')
    (hU : ParseUint (c :: cs) = .ok n) (hn : n < 9223372036854775808) :
    ParseInt (c :: cs) = .ok (n : Int) := by
  have h3 : ¬ (9223372036854775808 ≤ n) := by omega
  simp [ParseInt, h1, h2, hU, h3]

theorem ParseInt_plus (ds : Str) (n : Nat)
    (hU : ParseUint ds = .ok n) (hn : n < 9223372036854775808) :
    ParseInt ('+' :: ds) = .ok (n : Int) := by
  have h3 : ¬ (9223372036854775808 ≤ n) := by omega
  simp [ParseInt, hU, h3]

theorem ParseInt_minus (ds : Str) (n : Nat)
    (hU : ParseUint ds = .ok n) (hn : n ≤ 9223372036854775808) :
    ParseInt ('-' :: ds) = .ok (-(n : Int)) := by
  have h3 : ¬ (9223372036854775808 < n) := by omega
  simp [ParseInt, hU, h3]

/-- `ParseInt` on an integer literal whose value fits `int64`. -/
theorem ParseInt_literal (v : Str) (i : Int) (hlit : isIntLiteral v i)
    (hlo : -9223372036854775808 ≤ i) (hhi : i ≤ 9223372036854775807) :
    ParseInt v = .ok i := by
  obtain ⟨ds, hne, hd, hv⟩ := hlit
  have hmax : maxUint64 = 18446744073709551615 := rfl
  rcases hv with ⟨hv, hi⟩ | ⟨hv, hi⟩
  · have hU := ParseUint_digits ds hne hd (by rw [hmax]; omega)
    rcases hv with hv | hv
    · cases ds with
      | nil => exact absurd rfl hne
      | cons c cs =>
        have hc := digit_facts c (hd c (by simp))
        rw [hv, hi]
        exact ParseInt_unsigned c cs _ hc.2.2.2.2.2.1 hc.2.2.2.2.2.2.1 hU (by omega)
    · rw [hv, hi]
      exact ParseInt_plus ds _ hU (by omega)
  · have hU := ParseUint_digits ds hne hd (by rw [hmax]; omega)
    rw [hv, hi]
    exact ParseInt_minus ds _ hU (by omega)

theorem SkipSpace_cons (r : Char) (rest : Str) (h1 : r ≠ '\r') (h2 : r ≠ '\n')
    (h3 : isSpace r = false) : SkipSpace (r :: rest) = .ok (r :: rest) := by
  simp [SkipSpace, h1, h2, h3]

theorem accept_nil (ok b : Str) : accept ok ⟨b, []⟩ = (false, ⟨b, []⟩) := rfl

theorem accept_cons_pos (ok b : Str) (r : Char) (rest : Str) (h : ok.contains r = true) :
    accept ok ⟨b, r :: rest⟩ = (true, ⟨b ++ [r], rest⟩) := by
  simp only [accept, h, if_true]

theorem accept_cons_neg (ok b : Str) (r : Char) (rest : Str) (h : ok.contains r = false) :
    accept ok ⟨b, r :: rest⟩ = (false, ⟨b, r :: rest⟩) := by
  simp only [accept, h, Bool.false_eq_true, if_false]

theorem accept_of_peek (ok b rs : Str) (h : peek ok rs = false) :
    accept ok ⟨b, rs⟩ = (false, ⟨b, rs⟩) := by
  cases rs with
  | nil => rfl
  | cons r rest => exact accept_cons_neg ok b r rest h

/-- The loop of `accept` takes a run of accepted runes up to a rune that is
not accepted, or to the end. -/
theorem acceptAll_run (ok b ds rest : Str) (hd : ∀ c ∈ ds, ok.contains c = true)
    (hrest : peek ok rest = false) : acceptAll ok ⟨b, ds ++ rest⟩ = ⟨b ++ ds, rest⟩ := by
  have ht : rest.takeWhile ok.contains = [] := by
    cases rest with
    | nil => rfl
    | cons r rs => exact List.takeWhile_cons_of_neg (by simpa [peek] using hrest)
  have hdr : rest.dropWhile ok.contains = rest := by
    cases rest with
    | nil => rfl
    | cons r rs => exact List.dropWhile_cons_of_neg (by simpa [peek] using hrest)
  simp only [acceptAll]
  rw [List.takeWhile_append_of_pos hd, List.dropWhile_append_of_pos hd, ht, hdr,
    List.append_nil]

theorem scanNumber_digits (b ds : Str) (hne : ds ≠ []) (hd : ∀ c ∈ ds, c ∈ decimalDigits) :
    scanNumber decimalDigits ⟨b, ds⟩ = .ok ⟨b ++ ds, []⟩ := by
  cases ds with
  | nil => exact absurd rfl hne
  | cons c cs =>
    have hc := digit_facts c (hd c (by simp))
    have hcs : ∀ x ∈ cs, decimalDigits.contains x = true :=
      fun x hx => (digit_facts x (hd x (by simp [hx]))).2.2.2.2.2.2.2.2.2.2.2.1
    have hrun := acceptAll_run decimalDigits (b ++ [c]) cs [] hcs rfl
    simp only [List.append_nil] at hrun
    simp only [scanNumber, notEOF, accept_cons_pos decimalDigits b c cs hc.2.2.2.2.2.2.2.2.2.2.2.1,
      hrun, List.append_assoc, List.singleton_append]

/-- `scanInt` on a sign and a run of digits: the token is the whole input. -/
theorem scanInt_token (sg ds : Str) (hsg : sg = [] ∨ sg = ['+'] ∨ sg = ['-'])
    (hne : ds ≠ []) (hd : ∀ c ∈ ds, c ∈ decimalDigits) :
    SkipSpace (sg ++ ds) = .ok (sg ++ ds) ∧
    scanInt (sg ++ ds) =
      match ParseInt (sg ++ ds) with
      | .error e => .error (.num e)
      | .ok i => .ok i := by
  obtain ⟨c, cs, hds⟩ : ∃ c cs, ds = c :: cs := by
    cases ds with
    | nil => exact absurd rfl hne
    | cons c cs => exact ⟨c, cs, rfl⟩
  have hc := digit_facts c (hd c (by simp [hds]))
  rcases hsg with h | h | h
  · subst h
    have hskip : SkipSpace ([] ++ ds) = .ok ([] ++ ds) := by
      rw [hds]
      exact SkipSpace_cons c cs hc.2.2.2.1 hc.2.2.2.2.1 hc.2.2.1
    refine ⟨hskip, ?_⟩
    have hacc : accept sign ⟨[], [] ++ ds⟩ = (false, ⟨[], ds⟩) := by
      rw [hds]
      exact accept_cons_neg sign [] c cs hc.2.2.2.2.2.2.2.2.2.2.1
    have hne2 : notEOF ([] ++ ds) = .ok () := by
      rw [hds]
      rfl
    simp only [scanInt, hskip, hne2, hacc, scanNumber_digits [] ds hne hd]
  · subst h
    have hskip : SkipSpace (['+'] ++ ds) = .ok (['+'] ++ ds) :=
      SkipSpace_cons '+' ds (by decide) (by decide) (by decide)
    refine ⟨hskip, ?_⟩
    have hacc : accept sign ⟨[], ['+'] ++ ds⟩ = (true, ⟨['+'], ds⟩) :=
      accept_cons_pos sign [] '+' ds (by decide)
    have hne2 : notEOF (['+'] ++ ds) = .ok () := rfl
    simp only [scanInt, hskip, hne2, hacc, scanNumber_digits ['+'] ds hne hd]
  · subst h
    have hskip : SkipSpace (['-'] ++ ds) = .ok (['-'] ++ ds) :=
      SkipSpace_cons '-' ds (by decide) (by decide) (by decide)
    refine ⟨hskip, ?_⟩
    have hacc : accept sign ⟨[], ['-'] ++ ds⟩ = (true, ⟨['-'], ds⟩) :=
      accept_cons_pos sign [] '-' ds (by decide)
    have hne2 : notEOF (['-'] ++ ds) = .ok () := rfl
    simp only [scanInt, hskip, hne2, hacc, scanNumber_digits ['-'] ds hne hd]

/-- `parseIntValue` on an integer literal whose value fits the 64-bit `int`
is that value. -/
theorem parseIntValue_literal (v : Str) (i : Int) (hlit : isIntLiteral v i)
    (hlo : -9223372036854775808 ≤ i) (hhi : i ≤ 9223372036854775807) :
    parseIntValue v = .ok i := by
  have hP := ParseInt_literal v i hlit hlo hhi
  obtain ⟨ds, hne, hd, hv⟩ := hlit
  have hshape : ∃ sg : Str, (sg = [] ∨ sg = ['+'] ∨ sg = ['-']) ∧ v = sg ++ ds := by
    rcases hv with ⟨hv | hv, _⟩ | ⟨hv, _⟩
    · exact ⟨[], Or.inl rfl, by simpa using hv⟩
    · exact ⟨['+'], Or.inr (Or.inl rfl), by simpa using hv⟩
    · exact ⟨['-'], Or.inr (Or.inr rfl), by simpa using hv⟩
  obtain ⟨sg, hsg, hvs⟩ := hshape
  obtain ⟨h1, h2⟩ := scanInt_token sg ds hsg hne hd
  rw [← hvs] at h1 h2
  simp only [parseIntValue, SscanfInt, h1, h2, hP]

/-- The next rune of the digits and fraction of a decimal literal is a digit
or the period, so a set that holds neither is not accepted there. -/
theorem peek_body (ok ip fr : Str) (hip : ∀ c ∈ ip, c ∈ decimalDigits)
    (hfr : fr = [] ∨ ∃ fp : Str, fr = '.' :: fp ∧ ∀ c ∈ fp, c ∈ decimalDigits)
    (hd : ∀ c ∈ decimalDigits, ok.contains c = false) (hp : ok.contains '.' = false) :
    peek ok (ip ++ fr) = false := by
  cases ip with
  | nil =>
    rcases hfr with h | ⟨fp, h, _⟩
    · subst h
      rfl
    · subst h
      exact hp
  | cons c cs => exact hd c (hip c (by simp))

/-- On the digits and fraction of a decimal literal, what `floatToken` does
after the sign: the token takes them all. -/
theorem floatToken_body (b ip fr : Str) (hip : ∀ c ∈ ip, c ∈ decimalDigits)
    (hfr : fr = [] ∨ ∃ fp : Str, fr = '.' :: fp ∧ ∀ c ∈ fp, c ∈ decimalDigits) :
    ∃ x : Bool × ss,
      x = (let z := accept "0".toList ⟨b, ip ++ fr⟩
           if z.1 then accept "xX".toList z.2 else (false, z.2)) ∧
      x.1 = false ∧ acceptAll (decimalDigits ++ ['_']) x.2 = ⟨b ++ ip, fr⟩ := by
  have hdig : ∀ c ∈ ip, (decimalDigits ++ ['_']).contains c = true :=
    fun c hc => (digit_facts c (hip c hc)).2.2.2.2.2.2.2.2.2.2.2.2.1
  have hpk : peek (decimalDigits ++ ['_']) fr = false := by
    rcases hfr with h | ⟨fp, h, _⟩
    · subst h
      rfl
    · subst h
      show (decimalDigits ++ ['_']).contains '.' = false
      decide
  by_cases h0 : ∃ cs, ip = '0' :: cs
  · obtain ⟨cs, hcs⟩ := h0
    subst hcs
    have hz : accept "0".toList ⟨b, '0' :: cs ++ fr⟩ = (true, ⟨b ++ ['0'], cs ++ fr⟩) :=
      accept_cons_pos _ b '0' (cs ++ fr) (by decide)
    have hx : accept "xX".toList ⟨b ++ ['0'], cs ++ fr⟩ = (false, ⟨b ++ ['0'], cs ++ fr⟩) :=
      accept_of_peek _ _ _ (peek_body _ cs fr (fun c hc => hip c (by simp [hc])) hfr
        (fun c hc => (digit_facts c hc).2.2.2.2.2.2.2.2.2.2.2.2.2.2.2.1) (by decide))
    refine ⟨(false, ⟨b ++ ['0'], cs ++ fr⟩), ?_, rfl, ?_⟩
    · simp only [hz, if_true, hx]
    · have hrun := acceptAll_run (decimalDigits ++ ['_']) (b ++ ['0']) cs fr
        (fun c hc => hdig c (by simp [hc])) hpk
      simpa using hrun
  · have hpk0 : peek "0".toList (ip ++ fr) = false := by
      cases ip with
      | nil =>
        rcases hfr with h | ⟨fp, h, _⟩
        · subst h
          rfl
        · subst h
          show "0".toList.contains '.' = false
          decide
      | cons c cs =>
        have hc : c ≠ '0' := fun e => h0 ⟨cs, by rw [e]⟩
        simp [peek, hc]
    have hz : accept "0".toList ⟨b, ip ++ fr⟩ = (false, ⟨b, ip ++ fr⟩) :=
      accept_of_peek _ _ _ hpk0
    refine ⟨(false, ⟨b, ip ++ fr⟩), ?_, rfl, ?_⟩
    · simp only [hz, Bool.false_eq_true, if_false]
    · exact acceptAll_run (decimalDigits ++ ['_']) b ip fr hdig hpk

/-- `floatToken` on a decimal literal: the token is the whole literal. -/
theorem floatToken_decimal (sg ip fr : Str) (hsg : sg = [] ∨ sg = ['+'] ∨ sg = ['-'])
    (hip : ∀ c ∈ ip, c ∈ decimalDigits)
    (hfr : fr = [] ∨ ∃ fp : Str, fr = '.' :: fp ∧ ∀ c ∈ fp, c ∈ decimalDigits) :
    floatToken (sg ++ (ip ++ fr)) = ⟨sg ++ (ip ++ fr), []⟩ := by
  have hbodyN : ∀ ok : Str, (∀ c ∈ decimalDigits, ok.contains c = false) →
      ok.contains '.' = false → ok.contains '+' = false → ok.contains '-' = false →
      peek ok (sg ++ (ip ++ fr)) = false := by
    intro ok hd hp hplus hminus
    rcases hsg with h | h | h
    · subst h
      exact peek_body ok ip fr hip hfr hd hp
    · subst h
      exact hplus
    · subst h
      exact hminus
  -- NaN?
  have hN : accept "nN".toList ⟨[], sg ++ (ip ++ fr)⟩ = (false, ⟨[], sg ++ (ip ++ fr)⟩) :=
    accept_of_peek _ _ _ (hbodyN _ (fun c hc => (digit_facts c hc).2.2.2.2.2.2.2.2.2.2.2.2.2.1)
      (by decide) (by decide) (by decide))
  -- leading sign?
  have hS : (accept sign ⟨[], sg ++ (ip ++ fr)⟩).2 = ⟨sg, ip ++ fr⟩ := by
    rcases hsg with h | h | h
    · subst h
      simp only [List.nil_append]
      rw [accept_of_peek sign [] (ip ++ fr) (peek_body sign ip fr hip hfr
        (fun c hc => (digit_facts c hc).2.2.2.2.2.2.2.2.2.2.1) (by decide))]
    · subst h
      rw [show (['+'] ++ (ip ++ fr)) = '+' :: (ip ++ fr) from rfl,
        accept_cons_pos sign [] '+' (ip ++ fr) (by decide)]
      rfl
    · subst h
      rw [show (['-'] ++ (ip ++ fr)) = '-' :: (ip ++ fr) from rfl,
        accept_cons_pos sign [] '-' (ip ++ fr) (by decide)]
      rfl
  -- Inf?
  have hI : accept "iI".toList ⟨sg, ip ++ fr⟩ = (false, ⟨sg, ip ++ fr⟩) :=
    accept_of_peek _ _ _ (peek_body _ ip fr hip hfr
      (fun c hc => (digit_facts c hc).2.2.2.2.2.2.2.2.2.2.2.2.2.2.1) (by decide))
  obtain ⟨x, hx, hx1, hx2⟩ := floatToken_body sg ip fr hip hfr
  simp only [floatToken, hN, Bool.false_eq_true, if_false, hS, hI]
  simp only [] at hx
  rw [← hx]
  simp only [hx1, Bool.false_eq_true, if_false, hx2]
  rcases hfr with h | ⟨fp, h, hfp⟩
  · subst h
    simp only [accept_nil, Bool.false_eq_true, if_false, List.append_nil]
  · subst h
    have hrun := acceptAll_run (decimalDigits ++ ['_']) (sg ++ (ip ++ ['.'])) fp []
      (fun c hc => (digit_facts c (hfp c hc)).2.2.2.2.2.2.2.2.2.2.2.2.1) rfl
    simp only [List.append_nil] at hrun
    simp only [accept_cons_pos period (sg ++ ip) '.' fp (by decide), if_true, hrun, accept_nil,
      Bool.false_eq_true, if_false, List.append_assoc, List.singleton_append]

/-- A decimal literal starts with a rune that `SkipSpace` leaves unread. -/
theorem decimal_head (v : Str) (hlit : isDecimalLiteral v) :
    ∃ (r : Char) (rest : Str), v = r :: rest ∧ r ≠ '\r' ∧ r ≠ '\n' ∧ isSpace r = false := by
  obtain ⟨sg, ip, fr, hv, hsg, hip, hfr, hdig⟩ := hlit
  rcases hsg with h | h | h
  · subst h
    cases ip with
    | nil =>
      rcases hfr with h | ⟨fp, h, _⟩
      · subst h
        simp at hdig
      · subst h
        exact ⟨'.', fp, by simpa using hv, by decide, by decide, by decide⟩
    | cons c cs =>
      have hc := digit_facts c (hip c (by simp))
      exact ⟨c, cs ++ fr, by simpa using hv, hc.2.2.2.1, hc.2.2.2.2.1, hc.2.2.1⟩
  · subst h
    exact ⟨'+', ip ++ fr, by simpa using hv, by decide, by decide, by decide⟩
  · subst h
    exact ⟨'-', ip ++ fr, by simpa using hv, by decide, by decide, by decide⟩

/-- A decimal literal has no `p`, so `convertFloat` hands it to
`strconv.ParseFloat` as it is. -/
theorem decimal_no_p (v : Str) (hlit : isDecimalLiteral v) : v.contains 'p' = false := by
  obtain ⟨sg, ip, fr, hv, hsg, hip, hfr, _⟩ := hlit
  have hall : ∀ c ∈ v, c ≠ 'p' := by
    intro c hc
    rw [hv] at hc
    simp only [List.mem_append] at hc
    rcases hc with hc | hc | hc
    · rcases hsg with h | h | h
      · subst h
        cases hc
      · subst h
        simp only [List.mem_singleton] at hc
        subst hc
        decide
      · subst h
        simp only [List.mem_singleton] at hc
        subst hc
        decide
    · exact (digit_facts c (hip c hc)).2.2.2.2.2.2.2.1
    · rcases hfr with h | ⟨fp, h, hfp⟩
      · subst h
        cases hc
      · subst h
        rcases List.mem_cons.mp hc with e | e
        · subst e
          decide
        · exact (digit_facts c (hfp c e)).2.2.2.2.2.2.2.1
  cases hcon : v.contains 'p' with
  | false => rfl
  | true =>
    have hmem : 'p' ∈ v := by simpa using hcon
    exact absurd rfl (hall 'p' hmem)

/-- `parseFloatValue` on a decimal literal is what `strconv.ParseFloat` makes
of the whole literal. -/
theorem parseFloatValue_literal (lib : FloatLib) (v : Str) (x : lib.F)
    (hlit : isDecimalLiteral v) (hx : lib.parseFloat v = some x) :
    parseFloatValue lib v = .ok x := by
  obtain ⟨r, rest, hv, h1, h2, h3⟩ := decimal_head v hlit
  have hskip : SkipSpace v = .ok v := by
    rw [hv]
    exact SkipSpace_cons r rest h1 h2 h3
  have hne : notEOF v = .ok () := by
    rw [hv]
    rfl
  have hp := decimal_no_p v hlit
  obtain ⟨sg, ip, fr, hshape, hsg, hip, hfr, _⟩ := hlit
  have htok : (floatToken v).buf = v := by
    rw [hshape, floatToken_decimal sg ip fr hsg hip hfr]
  have hpm : 'p' ∉ v := by simpa using hp
  simp [parseFloatValue, SscanfFloat, hskip, hne, htok, convertFloat, hpm, hx]

/-! ## C1: well-formed lines -/

theorem Split_pair (k v : Str) (hk : '=' ∉ k) (hv : '=' ∉ v) :
    Split (k ++ '=' :: v) ['='] = [k, v] := by
  rw [Split_append_cons '=' k v hk, Split_of_not_mem '=' v hv]

/-- The pairs of a line built from pairs that hold neither "," nor "=". -/
theorem pairsOf_lineOf (kvs : List (Str × Str)) (hne : kvs ≠ [])
    (hfree : ∀ kv ∈ kvs, ',' ∉ kv.1 ∧ '=' ∉ kv.1 ∧ ',' ∉ kv.2 ∧ '=' ∉ kv.2) :
    Split (lineOf kvs) [','] = kvs.map (fun kv => kv.1 ++ '=' :: kv.2) ∧
    pairsOf (lineOf kvs) = kvs.map (fun kv => [kv.1, kv.2]) := by
  have hsplit : Split (lineOf kvs) [','] = kvs.map (fun kv => kv.1 ++ '=' :: kv.2) := by
    unfold lineOf
    apply Split_intercalate
    · simpa using hne
    · intro p hp
      simp only [List.mem_map] at hp
      obtain ⟨kv, hkv, e⟩ := hp
      subst e
      have h := hfree kv hkv
      simp only [List.mem_append, List.mem_cons, not_or]
      exact ⟨h.1, by decide, h.2.2.1⟩
  refine ⟨hsplit, ?_⟩
  unfold pairsOf
  rw [hsplit, List.map_map]
  apply List.map_congr_left
  intro kv hkv
  have h := hfree kv hkv
  exact Split_pair kv.1 kv.2 h.2.1 h.2.2.2

theorem valuesIn_map (key : Str) : ∀ kvs : List (Str × Str),
    valuesIn key (kvs.map (fun kv => [kv.1, kv.2])) =
      (kvs.filter (fun kv => decide (kv.1 = key))).map (fun kv => kv.2) := by
  intro kvs
  induction kvs with
  | nil => rfl
  | cons kv rest ih =>
    rw [List.map_cons, valuesIn_cons_pair, ih]
    by_cases hk : kv.1 = key
    · simp [hk, List.filter_cons]
    · simp [hk, List.filter_cons]

theorem lastValue_lineOf (key v : Str) (kvs : List (Str × Str))
    (hfree : ∀ kv ∈ kvs, ',' ∉ kv.1 ∧ '=' ∉ kv.1 ∧ ',' ∉ kv.2 ∧ '=' ∉ kv.2)
    (hone : kvs.filter (fun kv => decide (kv.1 = key)) = [(key, v)]) :
    lastValue key (lineOf kvs) = some v := by
  have hne : kvs ≠ [] := by
    intro e
    subst e
    cases hone
  unfold lastValue
  rw [(pairsOf_lineOf kvs hne hfree).2, valuesIn_map, hone]
  rfl

/-- On literals with a value in the range of `int`: the record of a line of
pairs in which CO2, HUM and TMP each are the key of one pair. -/
theorem parseSensorData_of_literals (lib : FloatLib) (kvs : List (Str × Str))
    (vc vh vt : Str) (i : Int) (h t : lib.F)
    (hfree : ∀ kv ∈ kvs, ',' ∉ kv.1 ∧ '=' ∉ kv.1 ∧ ',' ∉ kv.2 ∧ '=' ∉ kv.2)
    (hco2 : kvs.filter (fun kv => decide (kv.1 = keyCO2)) = [(keyCO2, vc)])
    (hhum : kvs.filter (fun kv => decide (kv.1 = keyHUM)) = [(keyHUM, vh)])
    (htmp : kvs.filter (fun kv => decide (kv.1 = keyTMP)) = [(keyTMP, vt)])
    (hi : isIntLiteral vc i)
    (hlo : -9223372036854775808 ≤ i) (hhi : i ≤ 9223372036854775807)
    (hh : isDecimalLiteral vh) (hph : lib.parseFloat vh = some h)
    (ht : isDecimalLiteral vt) (hpt : lib.parseFloat vt = some t) :
    parseSensorData lib (lineOf kvs) = .ok ⟨i, h, t⟩ := by
  have hne : kvs ≠ [] := by
    intro e
    subst e
    cases hco2
  have hpairs : ∀ p ∈ Split (lineOf kvs) [','], (Split p ['=']).length = 2 := by
    intro p hp
    rw [(pairsOf_lineOf kvs hne hfree).1] at hp
    simp only [List.mem_map] at hp
    obtain ⟨kv, hkv, e⟩ := hp
    subst e
    have hf := hfree kv hkv
    rw [Split_pair kv.1 kv.2 hf.2.1 hf.2.2.2]
    rfl
  rw [parseSensorData_eq_convert lib (lineOf kvs) hpairs,
    lastValue_lineOf keyCO2 vc kvs hfree hco2, lastValue_lineOf keyHUM vh kvs hfree hhum,
    lastValue_lineOf keyTMP vt kvs hfree htmp, convert_ok_iff]
  exact ⟨parseIntValue_literal vc i hi hlo hhi, parseFloatValue_literal lib vh h hh hph,
    parseFloatValue_literal lib vt t ht hpt⟩

/-- A run of decimal digits denotes a number below the power of ten of its
length. -/
theorem foldl_digits_lt : ∀ (ds : Str) (n : Nat), (∀ c ∈ ds, c ∈ decimalDigits) →
    ds.foldl (fun n c => 10 * n + (c.toNat - '0'.toNat)) n + 1 ≤ (n + 1) * 10 ^ ds.length := by
  intro ds
  induction ds with
  | nil => intro n _; simp
  | cons c cs ih =>
    intro n hd
    have hc := (digit_facts c (hd c (by simp))).2.1
    have h1 := ih (10 * n + (c.toNat - '0'.toNat)) (fun x hx => hd x (by simp [hx]))
    have h2 : (10 * n + (c.toNat - '0'.toNat) + 1) * 10 ^ cs.length ≤
        (10 * (n + 1)) * 10 ^ cs.length := Nat.mul_le_mul_right _ (by omega)
    have h3 : (10 * (n + 1)) * 10 ^ cs.length = (n + 1) * 10 ^ (cs.length + 1) := by
      rw [Nat.pow_succ]
      ring
    simp only [List.foldl_cons, List.length_cons]
    omega

theorem decimalValue_lt (ds : Str) (hd : ∀ c ∈ ds, c ∈ decimalDigits) (k : Nat)
    (hlen : ds.length ≤ k) : decimalValue ds < 10 ^ k := by
  have h1 := foldl_digits_lt ds 0 hd
  have h2 : 10 ^ ds.length ≤ 10 ^ k := Nat.pow_le_pow_right (by decide) hlen
  unfold decimalValue
  omega

/-- An integer literal of at most 18 characters has a value in the range of
the 64-bit `int`. -/
theorem isIntLiteral_range (v : Str) (i : Int) (hlit : isIntLiteral v i)
    (hlen : v.length ≤ 18) :
    -9223372036854775808 ≤ i ∧ i ≤ 9223372036854775807 := by
  obtain ⟨ds, _, hd, hv⟩ := hlit
  have hpow : (10 : Nat) ^ 18 = 1000000000000000000 := by norm_num
  have hds : ds.length ≤ 18 := by
    rcases hv with ⟨hv | hv, _⟩ | ⟨hv, _⟩
    · rw [← hv]
      exact hlen
    · rw [hv, List.length_cons] at hlen
      omega
    · rw [hv, List.length_cons] at hlen
      omega
  have hval := decimalValue_lt ds hd 18 hds
  rw [hpow] at hval
  rcases hv with ⟨_, hi⟩ | ⟨_, hi⟩
  · omega
  · omega

/-- The weight of a pair in a line: the key, the "=" and the value. -/
theorem length_lineOf : ∀ kvs : List (Str × Str),
    (kvs.map (fun kv => kv.1.length + 1 + kv.2.length)).sum ≤ (lineOf kvs).length := by
  intro kvs
  induction kvs with
  | nil => simp
  | cons kv rest ih =>
    cases rest with
    | nil =>
      have e : lineOf [kv] = kv.1 ++ '=' :: kv.2 := by
        simp [lineOf, List.intercalate, List.intersperse]
      rw [e]
      simp only [List.map_cons, List.map_nil, List.sum_cons, List.sum_nil,
        List.length_append, List.length_cons]
      omega
    | cons kv1 rest1 =>
      have hstep : lineOf (kv :: kv1 :: rest1) =
          (kv.1 ++ '=' :: kv.2) ++ ',' :: lineOf (kv1 :: rest1) := by
        simp [lineOf, List.intercalate, List.intersperse]
      rw [hstep]
      simp only [List.map_cons, List.sum_cons, List.length_append, List.length_cons] at ih ⊢
      omega

theorem filter_key_cons (key : Str) (kv : Str × Str) (rest : List (Str × Str)) :
    (kv :: rest).filter (fun x => decide (x.1 = key)) =
      if kv.1 = key then kv :: rest.filter (fun x => decide (x.1 = key))
      else rest.filter (fun x => decide (x.1 = key)) := by
  by_cases h : kv.1 = key <;> simp [List.filter_cons, h]

/-- The pairs with the keys CO2, HUM and TMP are different pairs of the
line. -/
theorem sum_three_keys : ∀ kvs : List (Str × Str),
    ((kvs.filter (fun kv => decide (kv.1 = keyCO2))).map
        (fun kv => kv.1.length + 1 + kv.2.length)).sum +
      ((kvs.filter (fun kv => decide (kv.1 = keyHUM))).map
        (fun kv => kv.1.length + 1 + kv.2.length)).sum +
      ((kvs.filter (fun kv => decide (kv.1 = keyTMP))).map
        (fun kv => kv.1.length + 1 + kv.2.length)).sum ≤
    (kvs.map (fun kv => kv.1.length + 1 + kv.2.length)).sum := by
  intro kvs
  induction kvs with
  | nil => simp
  | cons kv rest ih =>
    have h12 : keyCO2 ≠ keyHUM := by decide
    have h13 : keyCO2 ≠ keyTMP := by decide
    have h23 : keyHUM ≠ keyTMP := by decide
    rw [filter_key_cons keyCO2 kv rest, filter_key_cons keyHUM kv rest,
      filter_key_cons keyTMP kv rest]
    by_cases h1 : kv.1 = keyCO2
    · have e2 : kv.1 ≠ keyHUM := fun e => h12 (h1.symm.trans e)
      have e3 : kv.1 ≠ keyTMP := fun e => h13 (h1.symm.trans e)
      rw [if_pos h1, if_neg e2, if_neg e3]
      simp only [List.map_cons, List.sum_cons]
      omega
    · by_cases h2 : kv.1 = keyHUM
      · have e3 : kv.1 ≠ keyTMP := fun e => h23 (h2.symm.trans e)
        rw [if_neg h1, if_pos h2, if_neg e3]
        simp only [List.map_cons, List.sum_cons]
        omega
      · by_cases h3 : kv.1 = keyTMP
        · rw [if_neg h1, if_neg h2, if_pos h3]
          simp only [List.map_cons, List.sum_cons]
          omega
        · rw [if_neg h1, if_neg h2, if_neg h3]
          simp only [List.map_cons, List.sum_cons]
          omega

/-- In a line of at most 25 characters with one pair for each of CO2, HUM and
TMP, the CO2 value has at most 13 characters. -/
theorem length_co2_value (kvs : List (Str × Str)) (vc vh vt : Str)
    (hco2 : kvs.filter (fun kv => decide (kv.1 = keyCO2)) = [(keyCO2, vc)])
    (hhum : kvs.filter (fun kv => decide (kv.1 = keyHUM)) = [(keyHUM, vh)])
    (htmp : kvs.filter (fun kv => decide (kv.1 = keyTMP)) = [(keyTMP, vt)])
    (hlen : (lineOf kvs).length ≤ 25) : vc.length ≤ 13 := by
  have h1 := sum_three_keys kvs
  have h2 := length_lineOf kvs
  rw [hco2, hhum, htmp] at h1
  have k1 : keyCO2.length = 3 := rfl
  have k2 : keyHUM.length = 3 := rfl
  have k3 : keyTMP.length = 3 := rfl
  simp only [List.map_cons, List.map_nil, List.sum_cons, List.sum_nil, k1, k2, k3] at h1
  omega

/-- C1. For every line the read loop can pass (at most 25 characters: a read
of 27 bytes less the terminator) that is made of comma-separated pairs
`key=value` (keys and values without "," and "="), in which CO2, HUM and TMP
each are the key of exactly one pair, in any position, among pairs with other
keys, the CO2 value is a base-10 integer literal of value `i`, and the HUM and
TMP values are decimal literals of the `float64` values `h` and `t`
(`strconv.ParseFloat`): `parseSensorData` returns no error and the record with
Co2 = i, Hum = h and Temp = t. -/
theorem parseSensorData_well_formed (lib : FloatLib) (kvs : List (Str × Str))
    (vc vh vt : Str) (i : Int) (h t : lib.F)
    (hlen : (lineOf kvs).length ≤ 25)
    (hfree : ∀ kv ∈ kvs, ',' ∉ kv.1 ∧ '=' ∉ kv.1 ∧ ',' ∉ kv.2 ∧ '=' ∉ kv.2)
    (hco2 : kvs.filter (fun kv => decide (kv.1 = keyCO2)) = [(keyCO2, vc)])
    (hhum : kvs.filter (fun kv => decide (kv.1 = keyHUM)) = [(keyHUM, vh)])
    (htmp : kvs.filter (fun kv => decide (kv.1 = keyTMP)) = [(keyTMP, vt)])
    (hi : isIntLiteral vc i)
    (hh : isDecimalLiteral vh) (hph : lib.parseFloat vh = some h)
    (ht : isDecimalLiteral vt) (hpt : lib.parseFloat vt = some t) :
    parseSensorData lib (lineOf kvs) = .ok ⟨i, h, t⟩ := by
  have hvc : vc.length ≤ 18 := by
    have h13 := length_co2_value kvs vc vh vt hco2 hhum htmp hlen
    omega
  obtain ⟨hlo, hhi⟩ := isIntLiteral_range vc i hi hvc
  exact parseSensorData_of_literals lib kvs vc vh vt i h t hfree hco2 hhum htmp hi hlo hhi
    hh hph ht hpt

/-- C1 at the 25-character line "TMP=2.5,X=,CO2=415,HUM=55": the keys in
another order and a pair with an unknown key. -/
theorem parseSensorData_well_formed_witness :
    lineOf [("TMP".toList, "2.5".toList), ("X".toList, []),
      ("CO2".toList, "415".toList), ("HUM".toList, "55".toList)] =
      "TMP=2.5,X=,CO2=415,HUM=55".toList ∧
    parseSensorData decLib (lineOf [("TMP".toList, "2.5".toList), ("X".toList, []),
      ("CO2".toList, "415".toList), ("HUM".toList, "55".toList)]) =
      .ok ⟨415, .fin false 55 0, .fin false 25 1⟩ :=
  ⟨by decide,
    parseSensorData_well_formed decLib
      [("TMP".toList, "2.5".toList), ("X".toList, []),
        ("CO2".toList, "415".toList), ("HUM".toList, "55".toList)]
      "415".toList "55".toList "2.5".toList 415 (.fin false 55 0) (.fin false 25 1)
      (by decide) (by decide) (by decide) (by decide) (by decide)
      ⟨"415".toList, by decide, by decide, Or.inl ⟨Or.inl rfl, by decide⟩⟩
      ⟨[], "55".toList, [], by decide, Or.inl rfl, by decide, Or.inl rfl, Or.inl (by decide)⟩
      (by decide)
      ⟨[], "2".toList, ".5".toList, by decide, Or.inl rfl, by decide,
        Or.inr ⟨"5".toList, rfl, by decide⟩, Or.inl (by decide)⟩
      (by decide)⟩

end Co2Monitor
